import Mathlib

/-!
Verification of the bidder bot core: outline parser (bot/principles/parser.py),
principle store (bot/principles/storage.py), daily scheduler
(bot/principles/scheduler.py) and message chunking (bot/common/utils.py),
shallowly embedded in Lean.
-/

/-! ### Character and line helpers (Python string semantics) -/

/-- Python whitespace for `str.strip` and the regex class `\s` (ASCII range). -/
def isPySpace (c : Char) : Bool :=
  c = ' ' || c = '\t' || c = '\n' || c = '\r' || c = '\x0b' || c = '\x0c'

/-- `str.strip()` on a character list: drop whitespace from both ends. -/
def pyStripChars (cs : List Char) : List Char :=
  ((cs.dropWhile isPySpace).reverse.dropWhile isPySpace).reverse

/-- Python `s.strip()`. -/
def pyStrip (s : String) : String := String.mk (pyStripChars s.data)

/-- Drop trailing whitespace only (the effect of `\s*$` after a greedy group). -/
def dropTrailingSpace (cs : List Char) : List Char :=
  (cs.reverse.dropWhile isPySpace).reverse

/-- Python `s.split("\n")` on character lists: always returns at least one piece. -/
def splitNl : List Char → List (List Char)
  | [] => [[]]
  | c :: rest =>
    if c = '\n' then [] :: splitNl rest
    else
      match splitNl rest with
      | l :: ls => (c :: l) :: ls
      | [] => [[c]]

/-- `md_text.replace("\r\n", "\n").replace("\r", "\n")`: every CRLF collapses to LF
and every remaining CR becomes LF. -/
def normalizeNl : List Char → List Char
  | [] => []
  | [c] => if c = '\r' then ['\n'] else [c]
  | c :: c2 :: rest =>
    if c = '\r' then
      if c2 = '\n' then '\n' :: normalizeNl rest
      else '\n' :: normalizeNl (c2 :: rest)
    else c :: normalizeNl (c2 :: rest)

/-- `"\n".join(lines)` on character lists. -/
def joinNl : List (List Char) → List Char
  | [] => []
  | [l] => l
  | l :: l2 :: ls => l ++ '\n' :: joinNl (l2 :: ls)

/-! ### Outline parser (bot/principles/parser.py) -/

/-- A leaf content item: full heading breadcrumb plus the text under it. -/
structure PrincipleItem where
  path : List String
  text : String
deriving DecidableEq, Repr

/-- The heading regex `^(#{1,6})\s+(.*\S)\s*$` applied to one line, returning the
heading level and the title `m.group(2).strip()` on a match. -/
def headingMatch (line : List Char) : Option (Nat × String) :=
  let hashes := line.takeWhile (fun ch => ch == '#')
  let lv := hashes.length
  if 1 ≤ lv ∧ lv ≤ 6 then
    let rest := line.drop lv
    match rest with
    | [] => none
    | c :: _ =>
      if isPySpace c then
        let content := rest.dropWhile isPySpace
        if content.isEmpty then none
        else some (lv, String.mk (dropTrailingSpace content))
      else none
  else none

/-- Mutable state of the parser loop in `parse_principles`. -/
structure ParserState where
  current_path : List String
  buffer_lines : List (List Char)
  buffer_path : Option (List String)
  items : List PrincipleItem

/-- The inner `flush()`: if the buffer holds any non-blank line, emit an item whose
path is the (empty-slot-filtered) buffer path and whose text is the buffer joined
by newlines and stripped; always clear the buffer. -/
def flush (st : ParserState) : ParserState :=
  if st.buffer_lines.any (fun l => !(l.dropWhile isPySpace).isEmpty) then
    let text := String.mk (pyStripChars (joinNl st.buffer_lines))
    let path := (st.buffer_path.getD st.current_path).filter (fun p => !(p == ""))
    { st with items := st.items ++ [⟨path, text⟩], buffer_lines := [] }
  else
    { st with buffer_lines := [] }

/-- Path update on a heading: pad the path with empty slots up to `level`, truncate
deeper entries, then set slot `level - 1` to the new title. -/
def setPath (cp : List String) (level : Nat) (title : String) : List String :=
  let padded := if cp.length < level then cp ++ List.replicate (level - cp.length) "" else cp
  (padded.take level).set (level - 1) title

/-- One iteration of the `for line in lines` loop. -/
def parseStep (st : ParserState) (line : List Char) : ParserState :=
  match headingMatch line with
  | some (level, title) =>
    let st1 := flush st
    let cp := setPath st1.current_path level title
    { st1 with current_path := cp, buffer_path := some cp }
  | none => { st with buffer_lines := st.buffer_lines ++ [line] }

/-- `parse_principles`: normalize line ends, split into lines, run the loop, do a
final flush, then keep only items with a nonempty path and nonempty stripped text. -/
def parse_principles (md_text : String) : List PrincipleItem :=
  let lines := splitNl (normalizeNl md_text.data)
  let stF := flush (lines.foldl parseStep ⟨[], [], none, []⟩)
  stF.items.filter (fun it => !it.path.isEmpty && !(pyStrip it.text == ""))

/-! ### Principle store, normalized-record variant (bot/principles/storage.py).
File reads and writes are embedded as explicit state passing: the persisted
collection of one user is the `List Principle` threaded through the operations. -/

/-- One persisted principle record. -/
structure Principle where
  id : Int
  category : String
  title : String
  text : String
deriving DecidableEq, Repr

/-- Python `max(xs, default=0)` over integer ids. -/
def maxDefault0 (l : List Int) : Int :=
  match l.max? with
  | some m => m
  | none => 0

/-- `add_principle`: the new record gets id `max(existing ids, default=0) + 1` and is
appended; returns the updated collection and the new id. -/
def add_principle (ps : List Principle) (category title text : String) :
    List Principle × Int :=
  let new_id := maxDefault0 (ps.map (fun p => p.id)) + 1
  (ps ++ [{ id := new_id, category := category, title := title, text := text }], new_id)

/-- `remove_principle`: drop the record with the given id; persist and report true
only when something was dropped. -/
def remove_principle (ps : List Principle) (principle_id : Int) :
    List Principle × Bool :=
  let kept := ps.filter (fun p => p.id ≠ principle_id)
  if kept.length < ps.length then (kept, true) else (ps, false)

/-- One iteration of the grouping loop in `load_raw_principles`: append the record
to its category bucket, creating the bucket on first sight (dict insertion order). -/
def groupStep (acc : List (String × List Principle)) (p : Principle) :
    List (String × List Principle) :=
  if acc.any (fun kv => kv.1 == p.category) then
    acc.map (fun kv => if kv.1 == p.category then (kv.1, kv.2 ++ [p]) else kv)
  else acc ++ [(p.category, [p])]

/-- The dict-insertion-order grouping of records by category in `load_raw_principles`. -/
def groupCategories (ps : List Principle) : List (String × List Principle) :=
  ps.foldl groupStep []

/-- `"\n".join(lines)` at the String level. -/
def joinLinesNl (lines : List String) : String :=
  String.mk (joinNl (lines.map String.data))

/-- `load_raw_principles`: None for an empty collection, else a synthesized markdown
document with one `#` heading per category and one `##` heading per record title. -/
def load_raw_principles (ps : List Principle) : Option String :=
  if ps.isEmpty then none
  else
    let cats := groupCategories ps
    let lines := cats.flatMap (fun kv =>
      ["# " ++ kv.1, ""] ++ kv.2.flatMap (fun p => ["## " ++ p.title, p.text, ""]))
    some (joinLinesNl lines)

/-! ### Principle store, file level (storage.py reads).
The persisted file is embedded as a `FileContent`: missing, unreadable (read or
JSON-decode raises), or a decoded JSON value. -/

namespace FileStore

/-- A decoded JSON value, the result of a successful `json.loads`. -/
inductive Json where
  | null
  | bool (b : Bool)
  | num (n : Int)
  | str (s : String)
  | arr (elems : List Json)
  | obj (fields : List (String × Json))

/-- Contents of one persisted file as the reading code observes it. -/
inductive FileContent where
  | missing
  | unreadable
  | json (v : Json)

/-- A record built by `Principle(**item)`: keyword binding checks the key set but
performs no type validation on the values. -/
structure RawPrinciple where
  id : Json
  category : Json
  title : Json
  text : Json

/-- `Principle(**item)`: succeeds exactly when `item` is an object whose keys are
exactly id, category, title, text. -/
def decodePrinciple (v : Json) : Option RawPrinciple :=
  match v with
  | .obj fields =>
    let keys := fields.map Prod.fst
    if keys.length = 4 ∧ "id" ∈ keys ∧ "category" ∈ keys ∧
        "title" ∈ keys ∧ "text" ∈ keys then
      match fields.lookup "id", fields.lookup "category",
          fields.lookup "title", fields.lookup "text" with
      | some i, some c, some t, some x => some ⟨i, c, t, x⟩
      | _, _, _, _ => none
    else none
  | _ => none

/-- `[Principle(**item) for item in data]`: the whole comprehension raises (and is
caught) unless `data` is an array of well-shaped objects. -/
def decodePrincipleList (v : Json) : Option (List RawPrinciple) :=
  match v with
  | .arr elems => elems.mapM decodePrinciple
  | _ => none

/-- `load_principles`: missing file gives `[]`; any raise inside the `try` block
(unreadable file, bad JSON, wrong shape) is caught and gives `[]`. Total: it never
raises to the caller. -/
def load_principles (f : FileContent) : List RawPrinciple :=
  match f with
  | .missing => []
  | .unreadable => []
  | .json v => (decodePrincipleList v).getD []

/-- `load_time_config`: None when the file does not exist or reading or JSON
decoding raises; otherwise the decoded value. Total: it never raises. -/
def load_time_config (f : FileContent) : Option Json :=
  match f with
  | .missing => none
  | .unreadable => none
  | .json v => some v

/-- The degraded-read condition for the principles file: missing, unreadable, or
not decodable into the expected record shape. -/
def principlesDegraded : FileContent → Bool
  | .missing => true
  | .unreadable => true
  | .json v => (decodePrincipleList v).isNone

end FileStore

/-! ### Scheduler core (bot/principles/scheduler.py).
The APScheduler job table is embedded as a list of jobs; `get_job`, `remove` and
`add_job` with `replace_existing` act on it by job id. -/

/-- One registered recurring job: its id and cron trigger time. -/
structure Job where
  jobId : String
  hour : Nat
  minute : Nat
deriving DecidableEq, Repr

/-- `job_id_for`: `f"daily_{user_id}"`. -/
def job_id_for (user_id : Nat) : String := "daily_" ++ toString user_id

/-- `re.fullmatch(r"([01]?\d|2[0-3]):([0-5]\d)", hhmm)` as a decision procedure:
the whole string is an H or HH hour in 0..23, a colon, and an MM minute in 00..59. -/
def valid_hhmm (s : String) : Bool :=
  match s.data with
  | [h, ':', m1, m2] =>
    ('0' ≤ h && h ≤ '9') && ('0' ≤ m1 && m1 ≤ '5') && ('0' ≤ m2 && m2 ≤ '9')
  | [h1, h2, ':', m1, m2] =>
    (((h1 == '0' || h1 == '1') && ('0' ≤ h2 && h2 ≤ '9')) ||
      (h1 == '2' && ('0' ≤ h2 && h2 ≤ '3')))
    && ('0' ≤ m1 && m1 ≤ '5') && ('0' ≤ m2 && m2 ≤ '9')
  | _ => false

/-- Modelled from the spec: the reminder-config file is expected to hold
`{"time": "HH:MM", "tzname": "<string>"}` — a JSON object with exactly the keys
time and tzname, both strings, the time a valid 24-hour HH:MM. The code of
`load_time_config` performs no such shape check; this predicate only names the
expected shape the claim speaks of, for comparison with the code. -/
def timeConfigShaped (v : FileStore.Json) : Bool :=
  match v with
  | .obj fields =>
    let keys := fields.map Prod.fst
    if keys.length = 2 ∧ "time" ∈ keys ∧ "tzname" ∈ keys then
      match fields.lookup "time", fields.lookup "tzname" with
      | some (.str t), some (.str _) => valid_hhmm t
      | _, _ => false
    else false
  | _ => false

/-- `int()` on a string of ASCII digits. -/
def strToNat (cs : List Char) : Nat :=
  cs.foldl (fun acc c => acc * 10 + (c.toNat - '0'.toNat)) 0

/-- `hour, minute = map(int, hhmm.split(":"))`. -/
def hourMinuteOf (s : String) : Nat × Nat :=
  match s.splitOn ":" with
  | [h, m] => (strToNat h.data, strToNat m.data)
  | _ => (0, 0)

/-- `scheduler.get_job(jid)`. -/
def get_job (s : List Job) (jid : String) : Option Job :=
  s.find? (fun j => j.jobId == jid)

/-- `job.remove()`: deregister the job with this id. -/
def remove_job (s : List Job) (jid : String) : List Job :=
  s.filter (fun j => j.jobId != jid)

/-- `scheduler.add_job(..., id=jid, replace_existing=True)`: replace the job with
the same id if present, else append. -/
def add_job (s : List Job) (j : Job) : List Job :=
  if s.any (fun j0 => j0.jobId == j.jobId) then
    s.map (fun j0 => if j0.jobId == j.jobId then j else j0)
  else s ++ [j]

/-- `schedule_daily_job_for_user`: validate HH:MM (raising `ValueError` otherwise,
before any state change), remove the previous job for this user if any, then
register the new cron job under the same id. -/
def schedule_daily_job_for_user (s : List Job) (user_id : Nat) (hhmm : String) :
    Except String (List Job) :=
  if valid_hhmm hhmm then
    let jid := job_id_for user_id
    let s1 := match get_job s jid with
      | some _ => remove_job s jid
      | none => s
    let hm := hourMinuteOf hhmm
    Except.ok (add_job s1 { jobId := jid, hour := hm.1, minute := hm.2 })
  else Except.error "Time must be HH:MM in 24h format"

/-- One `schedule` call seen from outside: a raised validation error leaves the
job table unchanged. -/
def scheduleStep (s : List Job) (call : Nat × String) : List Job :=
  match schedule_daily_job_for_user s call.1 call.2 with
  | .ok s1 => s1
  | .error _ => s

/-- A sequence of `schedule` calls. -/
def runSchedules (s : List Job) (calls : List (Nat × String)) : List Job :=
  calls.foldl scheduleStep s

/-- Number of registered jobs belonging to one user. -/
def countJobs (s : List Job) (u : Nat) : Nat :=
  s.countP (fun j => j.jobId == job_id_for u)

/-! ### Message chunking (bot/common/utils.py) -/

def MAX_TELEGRAM_LEN : Nat := 4096

/-- The `f"\n\n<i>Part {idx}/{total}</i>"` suffix. -/
def partSuffix (idx total : Nat) : String :=
  "\n\n<i>Part " ++ toString idx ++ "/" ++ toString total ++ "</i>"

/-- Successive slices `text[start : start + k]` of the while loop; the fuel
argument bounds the iteration count and is never exhausted when it is at least
the text length and `k ≥ 1`. -/
def chunksOf (k : Nat) : Nat → List Char → List (List Char)
  | _, [] => []
  | 0, _ :: _ => []
  | fuel + 1, c :: cs => (c :: cs).take k :: chunksOf k fuel ((c :: cs).drop k)

/-- `send_chunked_html_message`: the list of message texts handed to
`bot.send_message`, in order. A short text goes out whole; a long one is cut into
`available`-sized slices, every slice is prefixed with the header, and every
non-final slice gets a `Part idx/total` suffix. -/
def send_chunked_html_message (text header : String) : List String :=
  let full_text := header ++ text
  if full_text.length ≤ MAX_TELEGRAM_LEN then [full_text]
  else
    let available := MAX_TELEGRAM_LEN - header.length
    let total := (text.length + available - 1) / available
    (chunksOf available text.length text.data).enum.map
      (fun p =>
        header ++ String.mk p.2 ++ (if p.1 + 1 < total then partSuffix (p.1 + 1) total else ""))

/-! ### Jitter delay (scheduler.py, send_daily_principle_job) -/

/-- Support of Python `random.randint(a, b)`: the closed interval of integers. -/
def randint_support (a b : Nat) : Finset Nat := Finset.Icc a b

/-- The delays `random.randint(0, 3600)` can produce in `send_daily_principle_job`. -/
def daily_job_delay_support : Finset Nat := randint_support 0 3600

/-! ### Persistence trace model (storage.py, save_principles).
The filesystem is a map from path to optional content; `Path.write_text` is a
truncate-then-write in place, so a concurrent reader can observe every prefix of
the new content; `os.rename` is atomic, with no intermediate state. -/

/-- One filesystem operation. -/
inductive FsOp where
  | writeFile (path : String) (content : String)
  | rename (src dst : String)

/-- Effect of an operation on the filesystem map. -/
def runOp (fs : String → Option String) : FsOp → String → Option String
  | .writeFile p c => fun q => if q = p then some c else fs q
  | .rename src dst => fun q =>
      if q = dst then fs src else if q = src then none else fs q

/-- States of path `q` observable while one operation is in progress: an in-place
`writeFile` exposes every prefix of the new content (truncation first, then
incremental writes); `rename` exposes nothing intermediate. -/
def midStates (fs : String → Option String) (op : FsOp) (q : String) :
    List (Option String) :=
  match op with
  | .writeFile p c =>
    if q = p then (List.range (c.length + 1)).map (fun k => some (String.mk (c.data.take k)))
    else [fs q]
  | .rename _ _ => []

/-- All states of path `q` a concurrent reader can observe across a trace. -/
def observables (fs : String → Option String) (q : String) :
    List FsOp → List (Option String)
  | [] => [fs q]
  | op :: ops => [fs q] ++ midStates fs op q ++ observables (runOp fs op) q ops

/-- `DATA_DIR / f"{user_id}_principles.json"`. -/
def principles_file (user_id : Nat) : String :=
  "data/" ++ toString user_id ++ "_principles.json"

/-- The filesystem trace of `save_principles`: a single in-place `write_text` of
the serialized collection. -/
def save_principles_write_ops (user_id : Nat) (content : String) : List FsOp :=
  [FsOp.writeFile (principles_file user_id) content]

/-- Modelled from the spec: the write-to-temp-then-rename persistence the spec
requires for `save_principles` ("persists the full updated collection atomically
... write-to-temp-then-rename or equivalent"); no such code exists under src,
where save_principles writes in place. -/
def atomic_save_principles_ops (user_id : Nat) (content : String) : List FsOp :=
  [FsOp.writeFile (principles_file user_id ++ ".tmp") content,
   FsOp.rename (principles_file user_id ++ ".tmp") (principles_file user_id)]

/-! ### Auxiliary definitions for the verification -/

/-- Every emitted item so far has only nonempty path components. -/
def ItemsOk (items : List PrincipleItem) : Prop :=
  ∀ it ∈ items, ∀ p ∈ it.path, p ≠ ""

/-- The store holding ids 1, 2, 3 built by three adds from empty. -/
def c4Store3 : List Principle :=
  (add_principle
    (add_principle (add_principle [] "a" "b" "c").1 "a" "b" "d").1 "a" "b" "e").1

/-- C7 counterexample header: 4 units. -/
def c7Header : String := "HDR:"

/-- The 4100-character body used in the C7 counterexample. -/
def c7Text : String := String.mk (List.replicate 4100 'a')

/-- Does a character list contain any non-whitespace character. -/
def hasNS (cs : List Char) : Bool := cs.any (fun ch => !isPySpace ch)

/-- A heading line together with the content lines that follow it, up to the
next heading: the unit the parser loop consumes. -/
structure Seg where
  line : List Char
  level : Nat
  title : String
  content : List (List Char)

/-- The raw lines of one segment. -/
def segLines (s : Seg) : List (List Char) := s.line :: s.content

/-- A well-formed segment: its first line is a heading of the recorded level and
title and none of its content lines is a heading. -/
def SegOk (s : Seg) : Prop :=
  headingMatch s.line = some (s.level, s.title) ∧
    ∀ l ∈ s.content, headingMatch l = none

/-- The item (zero or one) that a flush of the given buffer emits. -/
def bufItem (cp : List String) (bp : Option (List String))
    (buf : List (List Char)) : List PrincipleItem :=
  if buf.any (fun l => !(l.dropWhile isPySpace).isEmpty) then
    [⟨(bp.getD cp).filter (fun p => !(p == "")),
      String.mk (pyStripChars (joinNl buf))⟩]
  else []

/-- The items the parser emits for a run of segments entered with path `cp`. -/
def segItems (cp : List String) : List Seg → List PrincipleItem
  | [] => []
  | s :: rest =>
    bufItem (setPath cp s.level s.title) (some (setPath cp s.level s.title))
        s.content ++
      segItems (setPath cp s.level s.title) rest

/-- The current path after a run of segments entered with path `cp`. -/
def pathAfter (cp : List String) : List Seg → List String
  | [] => cp
  | s :: rest => pathAfter (setPath cp s.level s.title) rest

/-- The segment generated for one record: its `##` title line and its text lines
followed by the blank separator line. -/
def principleSeg (p : Principle) : Seg :=
  ⟨("## " ++ p.title).data, 2, p.title, splitNl p.text.data ++ [[]]⟩

/-- The segments generated for one category group: the `#` category line with a
single blank content line, then one segment per record. -/
def categorySegs (kv : String × List Principle) : List Seg :=
  ⟨("# " ++ kv.1).data, 1, kv.1, [[]]⟩ :: kv.2.map principleSeg

/-- The per-record hypotheses of the round-trip theorem: category and title are
their own trimmed forms, nonempty, and single-line; the text is nonempty after
trimming, free of carriage returns, and none of its lines is a heading. -/
@[reducible]
def RecordOk (p : Principle) : Prop :=
  p.category ≠ "" ∧ pyStrip p.category = p.category ∧
    '\n' ∉ p.category.data ∧ '\r' ∉ p.category.data ∧
  p.title ≠ "" ∧ pyStrip p.title = p.title ∧
    '\n' ∉ p.title.data ∧ '\r' ∉ p.title.data ∧
  pyStrip p.text ≠ "" ∧ '\r' ∉ p.text.data ∧
    ∀ l ∈ splitNl p.text.data, headingMatch l = none

/-- The single-record store of the C10 counterexample: its category " A" is
nonempty after trimming but not equal to its own trimmed form. -/
def c10BadStore : List Principle := [⟨1, " A", "T", "x"⟩]

/-- The single-record store of the C10 witness. -/
def c10Store : List Principle := [⟨1, "Cat", "Title", "Some text"⟩]

/-- The markdown document synthesized for the C10 witness store. -/
def c10Md : String := "# Cat\n\n## Title\nSome text\n"

/-! ## Theorems -/

/-- C2: the parser on the two synthetic documents from the spec. -/
theorem C2_parser_examples :
    parse_principles "# A\n## B\ntext1\n## C\ntext2a\ntext2b" =
      [⟨["A", "B"], "text1"⟩, ⟨["A", "C"], "text2a\ntext2b"⟩] ∧
    parse_principles "# Only\n\n\n" = [] := by
  decide

/-! C1: per-user job uniqueness in the scheduler -/

/-- After removing a job id, no job with that id remains. -/
theorem countP_remove_job_self (s : List Job) (jid : String) :
    (remove_job s jid).countP (fun j => j.jobId == jid) = 0 := by
  rw [List.countP_eq_zero]
  intro j hj
  have := (List.mem_filter.mp hj).2
  simpa [bne] using this

/-- The state `s1` inside a successful schedule call holds no job for the user:
either the old job was found and removed, or none existed. -/
theorem countP_preRegister_zero (s : List Job) (jid : String) :
    (match get_job s jid with
      | some _ => remove_job s jid
      | none => s).countP (fun (j : Job) => j.jobId == jid) = 0 := by
  cases hg : get_job s jid with
  | some j => simpa [hg] using countP_remove_job_self s jid
  | none =>
    simp only [hg]
    rw [List.countP_eq_zero]
    intro j hj
    have := List.find?_eq_none.mp hg j hj
    simpa using this

/-- A list with no job of the given id reports `any` false for it. -/
theorem any_eq_false_of_countP_zero (s : List Job) (jid : String)
    (h : s.countP (fun j => j.jobId == jid) = 0) :
    s.any (fun j => j.jobId == jid) = false := by
  rw [List.any_eq_false]
  intro j hj
  exact List.countP_eq_zero.mp h j hj

/-- A successful schedule call leaves exactly one job for the scheduled user. -/
theorem scheduleStep_countJobs_self (s : List Job) (u : Nat) (t : String)
    (hv : valid_hhmm t = true) :
    countJobs (scheduleStep s (u, t)) u = 1 := by
  have hz := countP_preRegister_zero s (job_id_for u)
  have ha := any_eq_false_of_countP_zero _ _ hz
  simp only [scheduleStep, schedule_daily_job_for_user, hv, if_pos, countJobs,
    add_job, ha, Bool.false_eq_true, if_false, List.countP_append, hz]
  simp

/-- Any schedule call leaves each user with at most `max` of the previous count
and one job. -/
theorem scheduleStep_countJobs_le (s : List Job) (v : Nat) (t : String) (u : Nat) :
    countJobs (scheduleStep s (v, t)) u ≤ max (countJobs s u) 1 := by
  cases hv : valid_hhmm t with
  | false =>
    simp [scheduleStep, schedule_daily_job_for_user, hv]
  | true =>
    by_cases hid : job_id_for v = job_id_for u
    · have h1 : countJobs (scheduleStep s (v, t)) u = 1 := by
        rw [countJobs, ← hid, ← countJobs]
        exact scheduleStep_countJobs_self s v t hv
      omega
    · have hz := countP_preRegister_zero s (job_id_for v)
      have ha := any_eq_false_of_countP_zero _ _ hz
      simp only [scheduleStep, schedule_daily_job_for_user, hv, if_pos, countJobs,
        add_job, ha, Bool.false_eq_true, if_false, List.countP_append]
      have hlast : List.countP (fun (j : Job) => j.jobId == job_id_for u)
          ([{ jobId := job_id_for v, hour := (hourMinuteOf t).1,
              minute := (hourMinuteOf t).2 }] : List Job) = 0 := by
        simp [List.countP_cons, hid]
      rw [hlast]
      cases hg : get_job s (job_id_for v) with
      | some j =>
        simp only [hg]
        have hle : (remove_job s (job_id_for v)).countP
              (fun (j : Job) => j.jobId == job_id_for u)
            ≤ s.countP (fun (j : Job) => j.jobId == job_id_for u) := by
          rw [remove_job, List.countP_filter]
          exact List.countP_mono_left (fun a _ h => (Bool.and_elim_left h))
        have hcj : countJobs s u
            = s.countP (fun (j : Job) => j.jobId == job_id_for u) := rfl
        omega
      | none =>
        simp only [hg]
        have hcj : countJobs s u
            = s.countP (fun (j : Job) => j.jobId == job_id_for u) := rfl
        omega

/-- At most one job per user after any call sequence from a state satisfying the
bound. -/
theorem runSchedules_countJobs_le_one (calls : List (Nat × String)) (u : Nat) :
    countJobs (runSchedules [] calls) u ≤ 1 := by
  suffices h : ∀ s, countJobs s u ≤ 1 → countJobs (runSchedules s calls) u ≤ 1 by
    exact h [] (by simp [countJobs])
  induction calls with
  | nil => exact fun s hs => hs
  | cons c rest ih =>
    intro s hs
    obtain ⟨cv, ct⟩ := c
    show countJobs (runSchedules (scheduleStep s (cv, ct)) rest) u ≤ 1
    refine ih _ ?_
    have := scheduleStep_countJobs_le s cv ct u
    omega

/-- C1: after any sequence of schedule calls from an empty scheduler every user
has at most one registered job, and two consecutive schedule calls with the same
valid time leave exactly one active job for that user (each call removes the
existing job for the user id before registering the new one). -/
theorem C1_schedule_job_uniqueness (calls : List (Nat × String)) (u v : Nat)
    (t : String) (hv : valid_hhmm t = true) :
    countJobs (runSchedules [] calls) v ≤ 1 ∧
    countJobs (scheduleStep (scheduleStep (runSchedules [] calls) (u, t)) (u, t)) u = 1 :=
  ⟨runSchedules_countJobs_le_one calls v,
   scheduleStep_countJobs_self _ u t hv⟩

/-- C1 instantiated: a mixed call sequence keeps the bound, and a double schedule
of user 7 at 23:59 leaves exactly one job for user 7. -/
theorem C1_schedule_job_uniqueness_witness :
    valid_hhmm "23:59" = true ∧
    countJobs (runSchedules [] [(7, "08:00"), (9, "xx")]) 9 ≤ 1 ∧
    countJobs (scheduleStep (scheduleStep
      (runSchedules [] [(7, "08:00"), (9, "xx")]) (7, "23:59")) (7, "23:59")) 7 = 1 :=
  ⟨by decide,
   (C1_schedule_job_uniqueness [(7, "08:00"), (9, "xx")] 7 9 "23:59" (by decide)).1,
   (C1_schedule_job_uniqueness [(7, "08:00"), (9, "xx")] 7 9 "23:59" (by decide)).2⟩

/-! C3: parser output invariants -/

/-- `flush` only appends items whose path was filtered to nonempty components. -/
theorem flush_items_ok (st : ParserState) (h : ItemsOk st.items) :
    ItemsOk (flush st).items := by
  unfold flush
  split
  · intro it hit
    simp only [List.mem_append, List.mem_singleton] at hit
    rcases hit with hit | rfl
    · exact h it hit
    · intro p hp hpe
      have hb := (List.mem_filter.mp hp).2
      rw [hpe] at hb
      rw [show (("" : String) == "") = true from rfl] at hb
      cases hb
  · exact h

/-- One parser step preserves the path invariant. -/
theorem parseStep_items_ok (st : ParserState) (line : List Char)
    (h : ItemsOk st.items) : ItemsOk (parseStep st line).items := by
  unfold parseStep
  cases headingMatch line with
  | some lt => exact flush_items_ok st h
  | none => exact h

/-- The whole parser loop preserves the path invariant. -/
theorem foldl_items_ok (lines : List (List Char)) (st : ParserState)
    (h : ItemsOk st.items) : ItemsOk (lines.foldl parseStep st).items := by
  induction lines generalizing st with
  | nil => exact h
  | cons l rest ih => exact ih (parseStep st l) (parseStep_items_ok st l h)

/-- C3: every item the parser returns has a path of length at least one made of
nonempty titles, and text that is nonempty after stripping; violating items are
filtered out and never appear. -/
theorem C3_parser_output_invariants (md : String) (it : PrincipleItem)
    (h : it ∈ parse_principles md) :
    1 ≤ it.path.length ∧ (∀ p ∈ it.path, p ≠ "") ∧ pyStrip it.text ≠ "" := by
  unfold parse_principles at h
  rw [List.mem_filter, Bool.and_eq_true] at h
  have hmem := h.1
  have hpath := h.2.1
  have htext := h.2.2
  refine ⟨?_, ?_, ?_⟩
  · rcases hp : it.path with _ | ⟨a, l⟩
    · rw [hp] at hpath
      simp at hpath
    · simp
  · have hok : ItemsOk (flush ((splitNl (normalizeNl md.data)).foldl parseStep
        ⟨[], [], none, []⟩)).items :=
      flush_items_ok _ (foldl_items_ok _ _ (fun x hx => absurd hx (List.not_mem_nil x)))
    exact hok it hmem
  · intro he
    rw [he] at htext
    rw [show (("" : String) == "") = true from rfl] at htext
    cases htext

/-- C3 instantiated at a concrete document and item. -/
theorem C3_parser_output_invariants_witness :
    (⟨["A"], "x"⟩ : PrincipleItem) ∈ parse_principles "# A\nx" ∧
    1 ≤ (["A"] : List String).length ∧
    (∀ p ∈ (["A"] : List String), p ≠ "") ∧ pyStrip "x" ≠ "" :=
  ⟨by decide, C3_parser_output_invariants "# A\nx" ⟨["A"], "x"⟩ (by decide)⟩

/-! C4: id assignment in the store -/

/-- The init of a fold by max never exceeds the result. -/
theorem le_foldl_max_init (l : List Int) (a : Int) : a ≤ l.foldl max a := by
  induction l generalizing a with
  | nil => exact le_refl a
  | cons b l ih => exact le_trans (le_max_left a b) (ih (max a b))

/-- Every member of the list is at most the fold by max. -/
theorem le_foldl_max_mem (l : List Int) (a x : Int) (hx : x ∈ l) :
    x ≤ l.foldl max a := by
  induction l generalizing a with
  | nil => cases hx
  | cons b l ih =>
    rw [List.foldl_cons]
    rcases List.mem_cons.mp hx with rfl | hx
    · exact le_trans (le_max_right a x) (le_foldl_max_init l (max a x))
    · exact ih (max a b) hx

/-- Every member of the list is at most `max(list, default=0)`. -/
theorem le_maxDefault0 (l : List Int) (x : Int) (hx : x ∈ l) : x ≤ maxDefault0 l := by
  cases l with
  | nil => cases hx
  | cons a l =>
    rcases List.mem_cons.mp hx with rfl | hx
    · exact le_foldl_max_init l x
    · exact le_foldl_max_mem l a x hx

/-- C4 counterexample: from an empty store, add gives id 1, add gives id 2,
removing id 2 succeeds, and the next add assigns id 2 again, so a removed id is
reassigned. -/
theorem C4_counterexample :
    (add_principle [] "c" "t" "x").2 = 1 ∧
    (add_principle (add_principle [] "c" "t" "x").1 "c" "t" "y").2 = 2 ∧
    (remove_principle
      (add_principle (add_principle [] "c" "t" "x").1 "c" "t" "y").1 2).2 = true ∧
    (add_principle
      (remove_principle
        (add_principle (add_principle [] "c" "t" "x").1 "c" "t" "y").1 2).1
      "c" "t" "z").2 = 2 := by
  decide

/-- C4 amended: add assigns max(existing ids) + 1, 1 on an empty store, so the new
id strictly exceeds every id currently stored; three adds from empty yield ids
1, 2, 3 and removing id 2 then adding yields id 4; but an id whose removal leaves
no larger id behind can be reassigned. -/
theorem C4_amended_id_assignment (ps : List Principle) (c t x : String)
    (p : Principle) (hp : p ∈ ps) :
    p.id < (add_principle ps c t x).2 ∧
    (add_principle [] "a" "b" "c").2 = 1 ∧
    (add_principle (add_principle [] "a" "b" "c").1 "a" "b" "d").2 = 2 ∧
    (add_principle
      (add_principle (add_principle [] "a" "b" "c").1 "a" "b" "d").1 "a" "b" "e").2 = 3 ∧
    (remove_principle c4Store3 2).2 = true ∧
    (add_principle (remove_principle c4Store3 2).1 "a" "b" "f").2 = 4 := by
  refine ⟨?_, by decide, by decide, by decide, by decide, by decide⟩
  have hmem : p.id ∈ ps.map (fun q => q.id) := List.mem_map_of_mem _ hp
  have := le_maxDefault0 (ps.map (fun q => q.id)) p.id hmem
  simp only [add_principle]
  omega

/-- C4 amended, instantiated: the fresh id exceeds the single stored id 5. -/
theorem C4_amended_id_assignment_witness :
    (⟨5, "a", "b", "c"⟩ : Principle) ∈ [(⟨5, "a", "b", "c"⟩ : Principle)] ∧
    (⟨5, "a", "b", "c"⟩ : Principle).id <
      (add_principle [⟨5, "a", "b", "c"⟩] "x" "y" "z").2 :=
  ⟨List.mem_singleton.mpr rfl,
   (C4_amended_id_assignment [⟨5, "a", "b", "c"⟩] "x" "y" "z" ⟨5, "a", "b", "c"⟩
      (List.mem_singleton.mpr rfl)).1⟩

/-! C5: time validation in schedule -/

/-- C5: `schedule_daily_job_for_user` fails, leaving the job table unchanged,
exactly when the time does not fully match `([01]?\d|2[0-3]):([0-5]\d)`;
"24:00" and "7:5" fail while "07:05" and "23:59" succeed. -/
theorem C5_schedule_time_validation (s : List Job) (u : Nat) (t : String) :
    ((∃ e, schedule_daily_job_for_user s u t = .error e) ↔ valid_hhmm t = false) ∧
    (valid_hhmm t = false → scheduleStep s (u, t) = s) ∧
    valid_hhmm "24:00" = false ∧ valid_hhmm "7:5" = false ∧
    valid_hhmm "07:05" = true ∧ valid_hhmm "23:59" = true := by
  refine ⟨?_, ?_, by decide, by decide, by decide, by decide⟩
  · cases hv : valid_hhmm t with
    | false => simp [schedule_daily_job_for_user, hv]
    | true => simp [schedule_daily_job_for_user, hv]
  · intro hv
    simp [scheduleStep, schedule_daily_job_for_user, hv]

/-- C5 instantiated: the malformed time "7:5" is rejected with no state change. -/
theorem C5_schedule_time_validation_witness :
    scheduleStep [] (1, "7:5") = [] ∧ valid_hhmm "24:00" = false :=
  ⟨(C5_schedule_time_validation [] 1 "7:5").2.1 (by decide),
   (C5_schedule_time_validation [] 1 "7:5").2.2.1⟩

/-! C6: degraded reads of persisted files -/

/-- C6 counterexample: a reminder-config file holding the decodable JSON number 3
is not of the expected `{"time": ..., "tzname": ...}` shape, yet
`load_time_config` returns it as-is rather than absent — the code decodes with no
shape validation, so only a missing file or a JSON decode failure yields absent.
The same wrong-shape content does degrade to empty for the principles loader. -/
theorem C6_counterexample :
    timeConfigShaped (FileStore.Json.num 3) = false ∧
    FileStore.load_time_config (FileStore.FileContent.json (FileStore.Json.num 3)) =
      some (FileStore.Json.num 3) ∧
    FileStore.load_time_config (FileStore.FileContent.json (FileStore.Json.num 3)) ≠
      none ∧
    FileStore.load_principles (FileStore.FileContent.json (FileStore.Json.num 3)) = [] :=
  ⟨rfl, rfl, fun h => Option.noConfusion h, rfl⟩

/-- C6 amended: a missing, unreadable or malformed principles file loads as the
empty list; the reminder config loads as absent exactly when the file is missing
or its contents fail JSON decoding — decodable JSON of the wrong shape is
returned as-is, not as absent. Both loaders are total, so nothing ever
propagates to the caller. -/
theorem C6_amended_degraded_reads (f g : FileStore.FileContent) :
    (FileStore.principlesDegraded f = true → FileStore.load_principles f = []) ∧
    (FileStore.load_time_config g = none ↔
      (g = FileStore.FileContent.missing ∨ g = FileStore.FileContent.unreadable)) := by
  constructor
  · intro h
    cases f with
    | missing => rfl
    | unreadable => rfl
    | json v =>
      simp only [FileStore.principlesDegraded, Option.isNone_iff_eq_none] at h
      simp [FileStore.load_principles, h]
  · cases g with
    | missing => simp [FileStore.load_time_config]
    | unreadable => simp [FileStore.load_time_config]
    | json v => simp [FileStore.load_time_config]

/-- C6 amended, instantiated: a number where a record array should be loads as
empty, and a missing config file loads as absent. -/
theorem C6_amended_degraded_reads_witness :
    FileStore.principlesDegraded (.json (.num 3)) = true ∧
    FileStore.load_principles (.json (.num 3)) = [] ∧
    FileStore.load_time_config .missing = none :=
  ⟨rfl, (C6_amended_degraded_reads (.json (.num 3)) .missing).1 rfl,
   (C6_amended_degraded_reads (.json (.num 3)) .missing).2.mpr (Or.inl rfl)⟩

/-! C7: message chunking -/

/-- Number of slices produced by the chunking loop: the ceiling of the text
length over the slice size. -/
theorem chunksOf_length (k : Nat) (hk : 1 ≤ k) :
    ∀ (fuel : Nat) (cs : List Char), cs.length ≤ fuel →
      (chunksOf k fuel cs).length = (cs.length + k - 1) / k := by
  intro fuel
  induction fuel with
  | zero =>
    intro cs hcs
    have hnil : cs = [] := List.length_eq_zero.mp (Nat.le_zero.mp hcs)
    subst hnil
    simp only [chunksOf, List.length_nil]
    exact (Nat.div_eq_of_lt (by omega)).symm
  | succ fuel ih =>
    intro cs hcs
    cases cs with
    | nil =>
      simp only [chunksOf, List.length_nil]
      exact (Nat.div_eq_of_lt (by omega)).symm
    | cons c cs' =>
      have hstep : chunksOf k (fuel + 1) (c :: cs') =
          (c :: cs').take k :: chunksOf k fuel ((c :: cs').drop k) := rfl
      have hlen : ((c :: cs').drop k).length = cs'.length + 1 - k := by
        rw [List.length_drop, List.length_cons]
      have hle : ((c :: cs').drop k).length ≤ fuel := by
        rw [hlen]
        have := List.length_cons c cs' ▸ hcs
        omega
      have hih := ih _ hle
      rw [hstep, List.length_cons, hih, hlen, List.length_cons]
      rcases Nat.lt_or_ge k (cs'.length + 1) with hk2 | hk2
      · have harg : cs'.length + 1 + k - 1 = ((cs'.length + 1 - k) + k - 1) + k := by
          omega
        rw [harg, Nat.add_div_right _ (by omega)]
      · have h0 : cs'.length + 1 - k = 0 := by omega
        have e1 : (0 + k - 1) / k = 0 := Nat.div_eq_of_lt (by omega)
        have e2 : (cs'.length + 1 + k - 1) / k = 1 := by
          refine Nat.div_eq_of_lt_le (by omega) (by omega)
        rw [h0, e1, e2]

/-- Every slice produced by the chunking loop has at most `k` characters. -/
theorem chunksOf_chunk_le (k : Nat) :
    ∀ (fuel : Nat) (cs : List Char), ∀ chunk ∈ chunksOf k fuel cs,
      chunk.length ≤ k := by
  intro fuel
  induction fuel with
  | zero =>
    intro cs chunk h
    cases cs <;> simp [chunksOf] at h
  | succ fuel ih =>
    intro cs chunk h
    cases cs with
    | nil => simp [chunksOf] at h
    | cons c cs' =>
      have hstep : chunksOf k (fuel + 1) (c :: cs') =
          (c :: cs').take k :: chunksOf k fuel ((c :: cs').drop k) := rfl
      rw [hstep, List.mem_cons] at h
      rcases h with rfl | h
      · rw [List.length_take]
        exact min_le_left _ _
      · exact ih _ chunk h

/-- Closed form of `send_chunked_html_message` in the long-message branch. -/
theorem send_chunked_eq (header text : String)
    (h2 : MAX_TELEGRAM_LEN < (header ++ text).length) :
    send_chunked_html_message text header =
      (chunksOf (MAX_TELEGRAM_LEN - header.length) text.length text.data).enum.map
        (fun p => header ++ String.mk p.2 ++
          (if p.1 + 1 < (text.length + (MAX_TELEGRAM_LEN - header.length) - 1) /
              (MAX_TELEGRAM_LEN - header.length) then
            partSuffix (p.1 + 1)
              ((text.length + (MAX_TELEGRAM_LEN - header.length) - 1) /
                (MAX_TELEGRAM_LEN - header.length))
          else "")) := by
  simp only [send_chunked_html_message]
  rw [if_neg (by omega)]

/-- The long-message branch produces exactly the ceiling number of parts. -/
theorem send_chunked_length (header text : String)
    (h1 : header.length < MAX_TELEGRAM_LEN)
    (h2 : MAX_TELEGRAM_LEN < (header ++ text).length) :
    (send_chunked_html_message text header).length =
      (text.length + (MAX_TELEGRAM_LEN - header.length) - 1) /
        (MAX_TELEGRAM_LEN - header.length) := by
  rw [send_chunked_eq header text h2, List.length_map, List.enum_length]
  have hdl : text.data.length = text.length := rfl
  rw [chunksOf_length _ (by omega) _ _ (le_of_eq hdl), hdl]

/-- C7 amended: when header plus body exceed 4096 units the message goes out in
ceil(len(text) / (4096 - len(header))) parts; every part, not only the first,
begins with the header; every non-final part carries a `Part i/N` suffix on top
of a full 4096-unit budget and can therefore exceed 4096 units, while the final
part has no suffix and never exceeds 4096 units. -/
theorem C7_amended_chunking (header text : String)
    (h1 : header.length < MAX_TELEGRAM_LEN)
    (h2 : MAX_TELEGRAM_LEN < (header ++ text).length) :
    1 ≤ (send_chunked_html_message text header).length ∧
    (send_chunked_html_message text header).length =
      (text.length + (MAX_TELEGRAM_LEN - header.length) - 1) /
        (MAX_TELEGRAM_LEN - header.length) ∧
    (∀ m ∈ send_chunked_html_message text header, ∃ rest, m = header ++ rest) ∧
    (∀ (i : Nat) (hi : i < (send_chunked_html_message text header).length),
      i + 1 < (send_chunked_html_message text header).length →
        ∃ mid : String, (send_chunked_html_message text header)[i] =
          header ++ mid ++ partSuffix (i + 1)
            ((text.length + (MAX_TELEGRAM_LEN - header.length) - 1) /
              (MAX_TELEGRAM_LEN - header.length)) ∧
          mid.length ≤ MAX_TELEGRAM_LEN - header.length) ∧
    (∀ (i : Nat) (hi : i < (send_chunked_html_message text header).length),
      i + 1 = (send_chunked_html_message text header).length →
        ∃ mid : String, (send_chunked_html_message text header)[i] = header ++ mid ∧
          ((send_chunked_html_message text header)[i]).length ≤ MAX_TELEGRAM_LEN) := by
  have hk : 1 ≤ MAX_TELEGRAM_LEN - header.length := by omega
  have hlen := send_chunked_length header text h1 h2
  have heq := send_chunked_eq header text h2
  have hdl : text.data.length = text.length := rfl
  have hchlen : (chunksOf (MAX_TELEGRAM_LEN - header.length) text.length text.data).length
      = (text.length + (MAX_TELEGRAM_LEN - header.length) - 1) /
        (MAX_TELEGRAM_LEN - header.length) := by
    rw [chunksOf_length _ hk _ _ (le_of_eq hdl), hdl]
  have htext1 : 1 ≤ text.length := by
    rw [String.length_append] at h2
    omega
  have htot : 1 ≤ (text.length + (MAX_TELEGRAM_LEN - header.length) - 1) /
      (MAX_TELEGRAM_LEN - header.length) := by
    rw [Nat.one_le_div_iff (by omega)]
    omega
  have hget : ∀ (i : Nat) (hi : i < (send_chunked_html_message text header).length)
      (hic : i < (chunksOf (MAX_TELEGRAM_LEN - header.length)
        text.length text.data).length),
      (send_chunked_html_message text header)[i] =
        header ++ String.mk ((chunksOf (MAX_TELEGRAM_LEN - header.length)
            text.length text.data)[i]) ++
          (if i + 1 < (text.length + (MAX_TELEGRAM_LEN - header.length) - 1) /
              (MAX_TELEGRAM_LEN - header.length) then
            partSuffix (i + 1)
              ((text.length + (MAX_TELEGRAM_LEN - header.length) - 1) /
                (MAX_TELEGRAM_LEN - header.length))
          else "") := by
    intro i hi hic
    simp only [heq, List.getElem_map, List.getElem_enum]
  refine ⟨hlen ▸ htot, hlen, ?_, ?_, ?_⟩
  · intro m hm
    rw [heq] at hm
    obtain ⟨p, hp, rfl⟩ := List.mem_map.mp hm
    exact ⟨String.mk p.2 ++ _, by rw [String.append_assoc]⟩
  · intro i hi hlt
    have hic : i < (chunksOf (MAX_TELEGRAM_LEN - header.length)
        text.length text.data).length := by
      rw [hchlen, ← hlen]
      exact hi
    refine ⟨String.mk ((chunksOf (MAX_TELEGRAM_LEN - header.length)
        text.length text.data)[i]), ?_, ?_⟩
    · rw [hget i hi hic, if_pos (by rw [hlen] at hlt; exact hlt)]
    · have hmem := List.getElem_mem hic
      exact chunksOf_chunk_le _ _ _ _ hmem
  · intro i hi hfin
    have hic : i < (chunksOf (MAX_TELEGRAM_LEN - header.length)
        text.length text.data).length := by
      rw [hchlen, ← hlen]
      exact hi
    have hnlt : ¬ (i + 1 < (text.length + (MAX_TELEGRAM_LEN - header.length) - 1) /
        (MAX_TELEGRAM_LEN - header.length)) := by
      rw [hlen] at hfin
      omega
    refine ⟨String.mk ((chunksOf (MAX_TELEGRAM_LEN - header.length)
        text.length text.data)[i]) ++ "", ?_, ?_⟩
    · rw [hget i hi hic, if_neg hnlt, String.append_assoc]
    · rw [hget i hi hic, if_neg hnlt]
      have hmem := List.getElem_mem hic
      have hcl := chunksOf_chunk_le _ _ _ _ hmem
      rw [String.length_append, String.length_append]
      have hmk : (String.mk ((chunksOf (MAX_TELEGRAM_LEN - header.length)
          text.length text.data)[i])).length ≤
          MAX_TELEGRAM_LEN - header.length := hcl
      have hemp : ("" : String).length = 0 := rfl
      omega

/-- C7 amended, instantiated: a one-character header with a 497-character body
splits into parts whose count matches the ceiling formula. -/
theorem C7_amended_chunking_witness :
    ("W" : String).length < MAX_TELEGRAM_LEN ∧
    MAX_TELEGRAM_LEN < ("W" ++ String.mk (List.replicate 4097 'b')).length ∧
    1 ≤ (send_chunked_html_message (String.mk (List.replicate 4097 'b')) "W").length := by
  have hw : ("W" : String).length = 1 := rfl
  have hb : (String.mk (List.replicate 4097 'b')).length = 4097 := by
    show (List.replicate 4097 'b').length = 4097
    rw [List.length_replicate]
  have h1 : ("W" : String).length < MAX_TELEGRAM_LEN := by
    rw [hw]; norm_num [MAX_TELEGRAM_LEN]
  have h2 : MAX_TELEGRAM_LEN < ("W" ++ String.mk (List.replicate 4097 'b')).length := by
    rw [String.length_append, hw, hb]; norm_num [MAX_TELEGRAM_LEN]
  exact ⟨h1, h2,
    (C7_amended_chunking "W" (String.mk (List.replicate 4097 'b')) h1 h2).1⟩

/-- One unrolling of the chunking loop under explicit side conditions. -/
theorem chunksOf_step (k fuel : Nat) (cs : List Char) (hf : 1 ≤ fuel)
    (hcs : cs ≠ []) :
    chunksOf k fuel cs = cs.take k :: chunksOf k (fuel - 1) (cs.drop k) := by
  cases fuel with
  | zero => omega
  | succ fuel =>
    cases cs with
    | nil => exact absurd rfl hcs
    | cons c cs' => rfl

/-- The chunking loop stops on an empty text. -/
theorem chunksOf_nil (k fuel : Nat) : chunksOf k fuel [] = [] := by
  cases fuel <;> rfl

/-- C7 counterexample: on the 4-unit header `HDR:` and a 4100-unit body, the code
sends two parts; the first is 4 + 4092 + 17 = 4113 units, exceeding 4096, and the
second part also begins with the header rather than omitting it. -/
theorem C7_counterexample :
    send_chunked_html_message c7Text c7Header =
      [c7Header ++ String.mk (List.replicate 4092 'a') ++ partSuffix 1 2,
       c7Header ++ String.mk (List.replicate 8 'a') ++ ""] ∧
    4096 < (c7Header ++ String.mk (List.replicate 4092 'a') ++ partSuffix 1 2).length ∧
    (c7Header ++ String.mk (List.replicate 8 'a') ++ "").data.take 4 = c7Header.data := by
  have hhl : c7Header.length = 4 := rfl
  have htl : c7Text.length = 4100 := by
    show (List.replicate 4100 'a').length = 4100
    rw [List.length_replicate]
  have h2 : MAX_TELEGRAM_LEN < (c7Header ++ c7Text).length := by
    rw [String.length_append, hhl, htl]
    norm_num [MAX_TELEGRAM_LEN]
  have heq := send_chunked_eq c7Header c7Text h2
  have havail : MAX_TELEGRAM_LEN - c7Header.length = 4092 := by
    rw [hhl]
    norm_num [MAX_TELEGRAM_LEN]
  have hdata : c7Text.data = List.replicate 4100 'a' := rfl
  rw [havail, htl, hdata] at heq
  have htot : (4100 + 4092 - 1) / 4092 = 2 := by norm_num
  rw [htot] at heq
  have hc : chunksOf 4092 4100 (List.replicate 4100 'a') =
      [List.replicate 4092 'a', List.replicate 8 'a'] := by
    have hne1 : List.replicate 4100 'a' ≠ [] := by
      rw [← List.length_pos, List.length_replicate]
      norm_num
    have hne2 : List.replicate 8 'a' ≠ [] := by
      rw [← List.length_pos, List.length_replicate]
      norm_num
    rw [chunksOf_step 4092 4100 _ (by norm_num) hne1,
      List.take_replicate, List.drop_replicate]
    norm_num
    rw [chunksOf_step 4092 4099 _ (by norm_num) hne2,
      List.take_replicate, List.drop_replicate]
    norm_num
    rw [chunksOf_nil]
  rw [hc] at heq
  have henum : ([List.replicate 4092 'a', List.replicate 8 'a'] :
      List (List Char)).enum = [(0, List.replicate 4092 'a'), (1, List.replicate 8 'a')] := rfl
  rw [henum] at heq
  simp only [List.map_cons, List.map_nil] at heq
  norm_num at heq
  refine ⟨heq, ?_, by decide⟩
  rw [String.length_append, String.length_append, hhl]
  have hm : (String.mk (List.replicate 4092 'a')).length = 4092 := by
    show (List.replicate 4092 'a').length = 4092
    rw [List.length_replicate]
  have hps : (partSuffix 1 2).length = 17 := rfl
  rw [hm, hps]
  norm_num

/-! C8: jitter delay range -/

/-- C8 counterexample: the claim says the delay is always strictly below 3600
seconds, but `random.randint(0, 3600)` can return exactly 3600. -/
theorem C8_counterexample :
    3600 ∈ daily_job_delay_support ∧ ¬(3600 < 3600) :=
  ⟨by simp [daily_job_delay_support, randint_support], by omega⟩

/-- C8 amended: the jitter delay is drawn uniformly from the closed interval
[0, 3600]: the possible delays are exactly the naturals at most 3600. -/
theorem C8_amended_delay_range (d : Nat) :
    d ∈ daily_job_delay_support ↔ d ≤ 3600 := by
  simp [daily_job_delay_support, randint_support]

/-! C9: persistence atomicity -/

/-- C9 counterexample: `save_principles` writes in place, so a reader interleaved
with the write of "NEW!" over "OLD" can observe the torn content "N", which is
neither the complete old nor the complete new file. -/
theorem C9_counterexample :
    some "N" ∈ observables
      (fun q => if q = principles_file 1 then some "OLD" else none)
      (principles_file 1) (save_principles_write_ops 1 "NEW!") ∧
    "N" ≠ "OLD" ∧ "N" ≠ "NEW!" := by
  decide

/-- C9 amended: the in-place write of `save_principles` is not atomic (see the
counterexample); the write-to-temp-then-rename sequence the spec prescribes does
satisfy the claim: a reader of the principles file racing with it observes only
the complete old or the complete new content. -/
theorem C9_amended_atomic_rename (user_id : Nat) (content : String)
    (fs : String → Option String) (s : Option String)
    (hs : s ∈ observables fs (principles_file user_id)
      (atomic_save_principles_ops user_id content)) :
    s = fs (principles_file user_id) ∨ s = some content := by
  have h4 : (".tmp" : String).length = 4 := rfl
  have hne : principles_file user_id ≠ principles_file user_id ++ ".tmp" := by
    intro h
    have hl := congrArg String.length h
    rw [String.length_append, h4] at hl
    omega
  simp only [atomic_save_principles_ops, observables, midStates, runOp,
    if_neg hne, if_pos rfl, List.nil_append, List.append_nil, List.cons_append,
    List.mem_cons, List.mem_singleton, List.not_mem_nil] at hs
  rcases hs with rfl | rfl | rfl | hs
  · exact Or.inl rfl
  · exact Or.inl rfl
  · exact Or.inl rfl
  · simp only [List.mem_cons, List.not_mem_nil, or_false] at hs
    subst hs
    exact Or.inr rfl

/-- C9 amended, instantiated: with an initially absent file, the atomic trace
only ever shows absent or the complete new content. -/
theorem C9_amended_atomic_rename_witness :
    some "NEW" ∈ observables (fun _ => none) (principles_file 2)
      (atomic_save_principles_ops 2 "NEW") ∧
    (some "NEW" = (fun (_ : String) => (none : Option String)) (principles_file 2) ∨
      (some "NEW" : Option String) = some "NEW") :=
  ⟨by decide,
   C9_amended_atomic_rename 2 "NEW" (fun _ => none) (some "NEW") (by decide)⟩

/-! C10: round trip from the record store through the synthesized markdown.
Infrastructure part 1: lines and whitespace. -/

/-- splitNl never returns an empty list of pieces. -/
theorem splitNl_ne_nil (cs : List Char) : splitNl cs ≠ [] := by
  cases cs with
  | nil => simp [splitNl]
  | cons c rest =>
    by_cases hc : c = '\n'
    · simp [splitNl, hc]
    · rw [splitNl, if_neg hc]
      cases h : splitNl rest with
      | nil => simp
      | cons l ls => simp

/-- Splitting distributes over a newline separator. -/
theorem splitNl_append_newline (a b : List Char) :
    splitNl (a ++ '\n' :: b) = splitNl a ++ splitNl b := by
  induction a with
  | nil => rfl
  | cons c a' ih =>
    by_cases hc : c = '\n'
    · subst hc
      show [] :: splitNl (a' ++ '\n' :: b) = ([] :: splitNl a') ++ splitNl b
      rw [ih, List.cons_append]
    · rw [List.cons_append, splitNl, if_neg hc, ih,
        show splitNl (c :: a') = (match splitNl a' with
          | l :: ls => (c :: l) :: ls
          | [] => [[c]]) from by rw [splitNl, if_neg hc]]
      cases h : splitNl a' with
      | nil => exact absurd h (splitNl_ne_nil a')
      | cons l ls => rfl

/-- Splitting a newline-free list yields just that list. -/
theorem splitNl_no_newline (cs : List Char) (h : '\n' ∉ cs) : splitNl cs = [cs] := by
  induction cs with
  | nil => rfl
  | cons c rest ih =>
    have hc : c ≠ '\n' := fun he => h (he ▸ List.mem_cons_self c rest)
    have hrest : '\n' ∉ rest := fun hr => h (List.mem_cons_of_mem c hr)
    rw [splitNl, if_neg hc, ih hrest]

/-- join after split is the identity. -/
theorem joinNl_splitNl (cs : List Char) : joinNl (splitNl cs) = cs := by
  induction cs with
  | nil => rfl
  | cons c rest ih =>
    by_cases hc : c = '\n'
    · subst hc
      rw [splitNl, if_pos rfl]
      cases h : splitNl rest with
      | nil => exact absurd h (splitNl_ne_nil rest)
      | cons l ls =>
        rw [h] at ih
        show [] ++ '\n' :: joinNl (l :: ls) = '\n' :: rest
        rw [List.nil_append, ih]
    · rw [splitNl, if_neg hc]
      cases h : splitNl rest with
      | nil => exact absurd h (splitNl_ne_nil rest)
      | cons l ls =>
        rw [h] at ih
        cases ls with
        | nil =>
          show c :: l = c :: rest
          rw [show joinNl [l] = l from rfl] at ih
          rw [ih]
        | cons l2 ls' =>
          show c :: joinNl (l :: l2 :: ls') = c :: rest
          rw [ih]

/-- Joining with one more empty piece appends a single newline. -/
theorem joinNl_append_empty (L : List (List Char)) (h : L ≠ []) :
    joinNl (L ++ [[]]) = joinNl L ++ ['\n'] := by
  induction L with
  | nil => exact absurd rfl h
  | cons l L' ih =>
    cases L' with
    | nil => rfl
    | cons l2 L'' =>
      show l ++ '\n' :: joinNl ((l2 :: L'') ++ [[]]) =
        (l ++ '\n' :: joinNl (l2 :: L'')) ++ ['\n']
      rw [ih (by simp), List.append_assoc]
      rfl

/-- A list without carriage returns is unchanged by newline normalization. -/
theorem normalizeNl_eq_self (cs : List Char) (h : '\r' ∉ cs) : normalizeNl cs = cs := by
  induction cs with
  | nil => rfl
  | cons c rest ih =>
    have hc : c ≠ '\r' := fun he => h (he ▸ List.mem_cons_self c rest)
    have hrest : '\r' ∉ rest := fun hr => h (List.mem_cons_of_mem c hr)
    cases rest with
    | nil =>
      show (if c = '\r' then ['\n'] else [c]) = [c]
      rw [if_neg hc]
    | cons c2 rest2 =>
      show (if c = '\r' then
          if c2 = '\n' then '\n' :: normalizeNl rest2
          else '\n' :: normalizeNl (c2 :: rest2)
        else c :: normalizeNl (c2 :: rest2)) = c :: c2 :: rest2
      rw [if_neg hc, ih hrest]

/-- A character other than newline absent from every piece is absent from the join. -/
theorem not_mem_joinNl (ch : Char) (hch : ch ≠ '\n') (L : List (List Char))
    (h : ∀ l ∈ L, ch ∉ l) : ch ∉ joinNl L := by
  induction L with
  | nil => simp [joinNl]
  | cons l L' ih =>
    cases L' with
    | nil => exact h l (by simp)
    | cons l2 L'' =>
      show ch ∉ l ++ '\n' :: joinNl (l2 :: L'')
      intro hmem
      rcases List.mem_append.mp hmem with hmem | hmem
      · exact h l (by simp) hmem
      · rcases List.mem_cons.mp hmem with he | hmem
        · exact hch he
        · exact ih (fun l' hl' => h l' (List.mem_cons_of_mem _ hl')) hmem

/-! C10 infrastructure part 2: stripping and non-whitespace content. -/

/-- hasNS on a cons. -/
theorem hasNS_cons (c : Char) (l : List Char) :
    hasNS (c :: l) = (!isPySpace c || hasNS l) := by
  rw [hasNS, List.any_cons, hasNS]

/-- Stripping shortens at least as much as the front drop alone. -/
theorem pyStripChars_length_le (cs : List Char) :
    (pyStripChars cs).length ≤ (cs.dropWhile isPySpace).length := by
  unfold pyStripChars
  rw [List.length_reverse]
  calc (List.dropWhile isPySpace (cs.dropWhile isPySpace).reverse).length
      ≤ (cs.dropWhile isPySpace).reverse.length :=
        (List.dropWhile_sublist _).length_le
    _ = (cs.dropWhile isPySpace).length := List.length_reverse _

/-- A string equal to its own strip has no leading whitespace. -/
theorem dropWhile_eq_self_of_pyStrip (cs : List Char) (h : pyStripChars cs = cs) :
    cs.dropWhile isPySpace = cs := by
  have h1 := pyStripChars_length_le cs
  rw [h] at h1
  exact (List.dropWhile_sublist _).eq_of_length
    (le_antisymm (List.dropWhile_sublist _).length_le h1)

/-- A string equal to its own strip has no trailing whitespace. -/
theorem dropTrailing_eq_self_of_pyStrip (cs : List Char) (h : pyStripChars cs = cs) :
    dropTrailingSpace cs = cs := by
  have hfront := dropWhile_eq_self_of_pyStrip cs h
  have hx : pyStripChars cs = dropTrailingSpace cs := by
    unfold pyStripChars dropTrailingSpace
    rw [hfront]
  rw [← hx, h]

/-- Dropping from the front past a non-matching last element. -/
theorem dropWhile_append_last_not (p : Char → Bool) (X : List Char) (c : Char)
    (hc : p c = false) :
    List.dropWhile p (X ++ [c]) = List.dropWhile p X ++ [c] := by
  induction X with
  | nil => simp [List.dropWhile_cons, hc]
  | cons x X' ih =>
    by_cases hx : p x = true
    · simp only [List.cons_append, List.dropWhile_cons, if_pos hx, ih]
    · simp [List.cons_append, List.dropWhile_cons, hx]

/-- Dropping from the front of an append when the left part survives. -/
theorem dropWhile_append_of_ne_nil (p : Char → Bool) (X Y : List Char)
    (h : X.dropWhile p ≠ []) :
    (X ++ Y).dropWhile p = X.dropWhile p ++ Y := by
  induction X with
  | nil => simp [List.dropWhile] at h
  | cons x X' ih =>
    by_cases hx : p x = true
    · rw [List.dropWhile_cons, if_pos hx] at h
      simp only [List.cons_append, List.dropWhile_cons, if_pos hx, ih h]
    · simp [List.cons_append, List.dropWhile_cons, hx]

/-- A whitespace-only list loses its whole tail. -/
theorem dropTrailing_eq_nil (cs : List Char) (h : hasNS cs = false) :
    dropTrailingSpace cs = [] := by
  unfold dropTrailingSpace
  have h1 : List.dropWhile isPySpace cs.reverse = [] := by
    rw [List.dropWhile_eq_nil_iff]
    intro x hx
    have hx' : x ∈ cs := List.mem_reverse.mp hx
    have := List.any_eq_false.mp (show cs.any (fun ch => !isPySpace ch) = false from h) x hx'
    simpa using this
  rw [h1]
  rfl

/-- A non-whitespace head survives trailing-space removal. -/
theorem dropTrailing_cons_of_not_space (c : Char) (rest : List Char)
    (hc : isPySpace c = false) :
    dropTrailingSpace (c :: rest) = c :: dropTrailingSpace rest := by
  unfold dropTrailingSpace
  rw [show (c :: rest).reverse = rest.reverse ++ [c] from by simp,
    dropWhile_append_last_not _ _ _ hc, List.reverse_append]
  rfl

/-- A head before some non-whitespace content survives trailing-space removal. -/
theorem dropTrailing_cons_of_hasNS (c : Char) (rest : List Char)
    (h : hasNS rest = true) :
    dropTrailingSpace (c :: rest) = c :: dropTrailingSpace rest := by
  unfold dropTrailingSpace
  have hne : List.dropWhile isPySpace rest.reverse ≠ [] := by
    intro hemp
    have hall := List.dropWhile_eq_nil_iff.mp hemp
    have hfalse : hasNS rest = false := by
      rw [hasNS, List.any_eq_false]
      intro x hx
      have := hall x (List.mem_reverse.mpr hx)
      simp [this]
    rw [hfalse] at h
    cases h
  rw [show (c :: rest).reverse = rest.reverse ++ [c] from by simp,
    dropWhile_append_of_ne_nil _ _ _ hne, List.reverse_append]
  rfl

/-- Front and back whitespace removal commute. -/
theorem dropTrailing_dropWhile_comm (cs : List Char) :
    dropTrailingSpace (cs.dropWhile isPySpace) =
      (dropTrailingSpace cs).dropWhile isPySpace := by
  induction cs with
  | nil => rfl
  | cons c rest ih =>
    by_cases hc : isPySpace c = true
    · by_cases hr : hasNS rest = true
      · rw [List.dropWhile_cons, if_pos hc, dropTrailing_cons_of_hasNS c rest hr,
          List.dropWhile_cons, if_pos hc, ih]
      · have hr' : hasNS rest = false := by
          revert hr
          cases hasNS rest <;> simp
        have h1 : List.dropWhile isPySpace rest = [] := by
          rw [List.dropWhile_eq_nil_iff]
          intro x hx
          have := List.any_eq_false.mp
            (show rest.any (fun ch => !isPySpace ch) = false from hr') x hx
          simpa using this
        have h2 : dropTrailingSpace (c :: rest) = [] := by
          refine dropTrailing_eq_nil _ ?_
          rw [hasNS_cons, hc, hr']
          rfl
        rw [List.dropWhile_cons, if_pos hc, h1, h2]
        rfl
    · have hcf : isPySpace c = false := by
        revert hc
        cases isPySpace c <;> simp
      rw [List.dropWhile_cons, if_neg hc, dropTrailing_cons_of_not_space c rest hcf,
        List.dropWhile_cons, if_neg hc]

/-- Stripping ignores one trailing newline. -/
theorem pyStripChars_append_nl (cs : List Char) :
    pyStripChars (cs ++ ['\n']) = pyStripChars cs := by
  have hdef : ∀ l : List Char,
      pyStripChars l = dropTrailingSpace (l.dropWhile isPySpace) := fun l => rfl
  rw [hdef, hdef, dropTrailing_dropWhile_comm, dropTrailing_dropWhile_comm]
  have htr : dropTrailingSpace (cs ++ ['\n']) = dropTrailingSpace cs := by
    unfold dropTrailingSpace
    rw [List.reverse_append, show (['\n'] : List Char).reverse = ['\n'] from rfl,
      List.singleton_append, List.dropWhile_cons,
      if_pos (show isPySpace '\n' = true from rfl)]
  rw [htr]

/-- The front drop keeps all non-whitespace content. -/
theorem any_not_dropWhile (p : Char → Bool) (l : List Char) :
    (l.dropWhile p).any (fun x => !p x) = l.any (fun x => !p x) := by
  induction l with
  | nil => rfl
  | cons c rest ih =>
    by_cases hc : p c = true
    · rw [List.dropWhile_cons, if_pos hc, ih, List.any_cons]
      simp [hc]
    · rw [List.dropWhile_cons, if_neg hc]

/-- Stripping keeps all non-whitespace content. -/
theorem hasNS_pyStripChars (cs : List Char) : hasNS (pyStripChars cs) = hasNS cs := by
  unfold pyStripChars hasNS
  rw [List.any_reverse, any_not_dropWhile, List.any_reverse, any_not_dropWhile]

/-- A strip result is empty exactly when the input is all whitespace. -/
theorem pyStripChars_eq_nil_iff (cs : List Char) :
    pyStripChars cs = [] ↔ hasNS cs = false := by
  constructor
  · intro h
    rw [← hasNS_pyStripChars, h]
    rfl
  · intro h
    have h1 : List.dropWhile isPySpace cs = [] := by
      rw [List.dropWhile_eq_nil_iff]
      intro x hx
      have := List.any_eq_false.mp
        (show cs.any (fun ch => !isPySpace ch) = false from h) x hx
      simpa using this
    unfold pyStripChars
    rw [h1]
    rfl

/-- The non-blank test of the parser buffer equals the non-whitespace test. -/
theorem nonblank_eq_hasNS (l : List Char) :
    (!(l.dropWhile isPySpace).isEmpty) = hasNS l := by
  induction l with
  | nil => rfl
  | cons c rest ih =>
    by_cases hc : isPySpace c = true
    · rw [List.dropWhile_cons, if_pos hc, ih, hasNS_cons, hc]
      rfl
    · have hcf : isPySpace c = false := by
        revert hc
        cases isPySpace c <;> simp
      rw [List.dropWhile_cons, if_neg hc, hasNS_cons, hcf]
      rfl

/-- The pieces of a split have non-whitespace content exactly when the input does. -/
theorem any_hasNS_splitNl (cs : List Char) :
    (splitNl cs).any hasNS = hasNS cs := by
  induction cs with
  | nil => rfl
  | cons c rest ih =>
    by_cases hc : c = '\n'
    · subst hc
      rw [splitNl, if_pos rfl, List.any_cons, ih, hasNS_cons]
      rfl
    · rw [splitNl, if_neg hc]
      cases h : splitNl rest with
      | nil => exact absurd h (splitNl_ne_nil rest)
      | cons l ls =>
        rw [h] at ih
        rw [List.any_cons] at ih
        show (hasNS (c :: l) || ls.any hasNS) = hasNS (c :: rest)
        rw [hasNS_cons, hasNS_cons, Bool.or_assoc, ih]

/-! C10 infrastructure part 3: the parser loop over segments. -/

/-- flush in closed form. -/
theorem flush_eq (st : ParserState) :
    flush st = ⟨st.current_path, [], st.buffer_path,
      st.items ++ bufItem st.current_path st.buffer_path st.buffer_lines⟩ := by
  by_cases h : (st.buffer_lines.any (fun l => !(l.dropWhile isPySpace).isEmpty)) = true
  · simp [flush, bufItem, h]
  · simp [flush, bufItem, h]

/-- The empty line is not a heading. -/
theorem headingMatch_nil : headingMatch [] = none := rfl

/-- A category line parses back to a level-1 heading with the category as title. -/
theorem headingMatch_h1 (c : String) (hne : c ≠ "") (hstrip : pyStrip c = c) :
    headingMatch (("# " ++ c).data) = some (1, c) := by
  have hdata : ("# " ++ c).data = '#' :: ' ' :: c.data := by
    rw [String.data_append]
    rfl
  have hsc : pyStripChars c.data = c.data := congrArg String.data hstrip
  have hcd : c.data ≠ [] := by
    intro h0
    apply hne
    have he : c = String.mk c.data := rfl
    rw [he, h0]
  have hfront := dropWhile_eq_self_of_pyStrip c.data hsc
  have hback := dropTrailing_eq_self_of_pyStrip c.data hsc
  rw [hdata]
  show (if (List.dropWhile isPySpace c.data).isEmpty = true then none
    else some (1, String.mk (dropTrailingSpace (List.dropWhile isPySpace c.data))))
      = some (1, c)
  rw [hfront, hback, if_neg (fun h => hcd (List.isEmpty_iff.mp h))]

/-- A title line parses back to a level-2 heading with the title. -/
theorem headingMatch_h2 (t : String) (hne : t ≠ "") (hstrip : pyStrip t = t) :
    headingMatch (("## " ++ t).data) = some (2, t) := by
  have hdata : ("## " ++ t).data = '#' :: '#' :: ' ' :: t.data := by
    rw [String.data_append]
    rfl
  have hst : pyStripChars t.data = t.data := congrArg String.data hstrip
  have htd : t.data ≠ [] := by
    intro h0
    apply hne
    have he : t = String.mk t.data := rfl
    rw [he, h0]
  have hfront := dropWhile_eq_self_of_pyStrip t.data hst
  have hback := dropTrailing_eq_self_of_pyStrip t.data hst
  rw [hdata]
  show (if (List.dropWhile isPySpace t.data).isEmpty = true then none
    else some (2, String.mk (dropTrailingSpace (List.dropWhile isPySpace t.data))))
      = some (2, t)
  rw [hfront, hback, if_neg (fun h => htd (List.isEmpty_iff.mp h))]

/-- Non-heading lines only accumulate in the buffer. -/
theorem foldl_content (ls : List (List Char)) (st : ParserState)
    (h : ∀ l ∈ ls, headingMatch l = none) :
    List.foldl parseStep st ls = { st with buffer_lines := st.buffer_lines ++ ls } := by
  induction ls generalizing st with
  | nil => simp
  | cons l ls' ih =>
    rw [List.foldl_cons,
      show parseStep st l = { st with buffer_lines := st.buffer_lines ++ [l] } from by
        unfold parseStep
        rw [h l (by simp)],
      ih _ (fun l' hl' => h l' (by simp [hl']))]
    simp

/-- A heading line flushes the buffer and rewires the path. -/
theorem parseStep_heading (st : ParserState) (line : List Char) (lv : Nat) (t : String)
    (h : headingMatch line = some (lv, t)) :
    parseStep st line = ⟨setPath st.current_path lv t, [],
      some (setPath st.current_path lv t),
      st.items ++ bufItem st.current_path st.buffer_path st.buffer_lines⟩ := by
  unfold parseStep
  rw [h, flush_eq]

/-- Running the parser over the lines of a segment list: the emitted items are the
pending buffer item followed by one optional item per segment. -/
theorem seg_run (segs : List Seg) (cp : List String) (buf : List (List Char))
    (bp : Option (List String)) (items : List PrincipleItem)
    (hok : ∀ s ∈ segs, SegOk s) :
    (flush (List.foldl parseStep ⟨cp, buf, bp, items⟩ (segs.flatMap segLines))).items =
      items ++ bufItem cp bp buf ++ segItems cp segs := by
  induction segs generalizing cp buf bp items with
  | nil =>
    rw [List.flatMap_nil, List.foldl_nil, flush_eq]
    simp [segItems]
  | cons s rest ih =>
    obtain ⟨hhead, hcontent⟩ := hok s (by simp)
    rw [show (s :: rest).flatMap segLines =
        (s.line :: s.content) ++ rest.flatMap segLines from by
      rw [List.flatMap_cons]
      rfl]
    rw [List.foldl_append, List.foldl_cons, parseStep_heading _ _ _ _ hhead,
      foldl_content _ _ hcontent]
    rw [show ({ (⟨setPath cp s.level s.title, [], some (setPath cp s.level s.title),
        items ++ bufItem cp bp buf⟩ : ParserState) with
        buffer_lines := ([] : List (List Char)) ++ s.content } : ParserState) =
      ⟨setPath cp s.level s.title, s.content, some (setPath cp s.level s.title),
        items ++ bufItem cp bp buf⟩ from by simp]
    rw [ih _ _ _ _ (fun s' hs' => hok s' (by simp [hs']))]
    simp only [segItems, List.append_assoc]

/-! C10 infrastructure part 4: path updates and per-segment items. -/

/-- A level-1 heading resets the path to its own title, from any prior path. -/
theorem setPath_one (cp : List String) (c : String) : setPath cp 1 c = [c] := by
  cases cp with
  | nil => rfl
  | cons a rest =>
    unfold setPath
    rw [if_neg (by simp)]
    rfl

/-- A level-2 heading under a one- or two-level path yields the two-level path. -/
theorem setPath_two_of_shape (cp : List String) (c t : String)
    (h : cp = [c] ∨ ∃ t0, cp = [c, t0]) : setPath cp 2 t = [c, t] := by
  rcases h with rfl | ⟨t0, rfl⟩
  · rfl
  · rfl

/-- A buffer holding one blank line emits nothing. -/
theorem bufItem_blank (cp : List String) (bp : Option (List String)) :
    bufItem cp bp [[]] = [] := rfl

/-- An empty buffer emits nothing. -/
theorem bufItem_empty (cp : List String) (bp : Option (List String)) :
    bufItem cp bp [] = [] := rfl

/-- A record text buffer (its split lines plus one blank) emits exactly the item
with the record path and the stripped text. -/
theorem bufItem_principle (np : List String) (td : List Char)
    (hns : hasNS td = true) :
    bufItem np (some np) (splitNl td ++ [[]]) =
      [⟨np.filter (fun p => !(p == "")), String.mk (pyStripChars td)⟩] := by
  have hfun : (fun (l : List Char) => !(l.dropWhile isPySpace).isEmpty) = hasNS :=
    funext nonblank_eq_hasNS
  unfold bufItem
  rw [hfun, List.any_append, any_hasNS_splitNl, hns,
    joinNl_append_empty _ (splitNl_ne_nil td), joinNl_splitNl, pyStripChars_append_nl]
  simp

/-- segItems splits over segment concatenation. -/
theorem segItems_append (cp : List String) (A B : List Seg) :
    segItems cp (A ++ B) = segItems cp A ++ segItems (pathAfter cp A) B := by
  induction A generalizing cp with
  | nil => rfl
  | cons s A' ih =>
    show bufItem (setPath cp s.level s.title) (some (setPath cp s.level s.title))
        s.content ++ segItems (setPath cp s.level s.title) (A' ++ B) = _
    rw [ih]
    simp [segItems, pathAfter, List.append_assoc]

/-- The items of the segments of one category group: one item per record, with
the category and title as path and the stripped text as body. -/
theorem segItems_principles (c : String) (hc : c ≠ "") (ps' : List Principle)
    (hps' : ∀ p ∈ ps', p.title ≠ "" ∧ pyStrip p.text ≠ "")
    (cp : List String) (hcp : cp = [c] ∨ ∃ t0, cp = [c, t0]) :
    segItems cp (ps'.map principleSeg) =
      ps'.map (fun p => ⟨[c, p.title], pyStrip p.text⟩) := by
  induction ps' generalizing cp with
  | nil => rfl
  | cons p rest ih =>
    obtain ⟨hti, htx⟩ := hps' p (by simp)
    rw [List.map_cons, List.map_cons]
    show bufItem (setPath cp 2 p.title) (some (setPath cp 2 p.title))
        (splitNl p.text.data ++ [[]]) ++
      segItems (setPath cp 2 p.title) (rest.map principleSeg) =
      (⟨[c, p.title], pyStrip p.text⟩ : PrincipleItem) ::
        rest.map (fun p => ⟨[c, p.title], pyStrip p.text⟩)
    rw [setPath_two_of_shape cp c p.title hcp]
    have hns : hasNS p.text.data = true := by
      by_contra hno
      have hfalse : hasNS p.text.data = false := by
        revert hno
        cases hasNS p.text.data <;> simp
      have hnil := (pyStripChars_eq_nil_iff p.text.data).mpr hfalse
      apply htx
      show String.mk (pyStripChars p.text.data) = ""
      rw [hnil]
    rw [bufItem_principle _ _ hns]
    have hfil : ([c, p.title].filter (fun q => !(q == ""))) = [c, p.title] := by
      have h1 : (!(c == "")) = true := by
        cases hh : c == ""
        · rfl
        · exact absurd (eq_of_beq hh) hc
      have h2 : (!(p.title == "")) = true := by
        cases hh : p.title == ""
        · rfl
        · exact absurd (eq_of_beq hh) hti
      simp [List.filter, h1, h2]
    rw [hfil, ih (fun q hq => hps' q (by simp [hq])) [c, p.title] (Or.inr ⟨p.title, rfl⟩)]
    rfl

/-! C10 infrastructure part 5: the category grouping. -/

/-- Updating the (unique, by Nodup) matching bucket moves the record to the end
of the flattened contents, up to permutation. -/
theorem update_flatMap_perm (acc : List (String × List Principle)) (p : Principle)
    (hnd : (acc.map Prod.fst).Nodup)
    (h : acc.any (fun kv => kv.1 == p.category) = true) :
    (acc.map (fun kv => if kv.1 == p.category then (kv.1, kv.2 ++ [p]) else kv)).flatMap
        (fun kv => kv.2) |>.Perm (acc.flatMap (fun kv => kv.2) ++ [p]) := by
  induction acc with
  | nil => simp at h
  | cons kv rest ih =>
    rw [List.map_cons] at hnd
    rw [List.nodup_cons] at hnd
    obtain ⟨hkey_notin, hnd'⟩ := hnd
    rw [List.any_cons] at h
    by_cases hk : (kv.1 == p.category) = true
    · have hkeq : kv.1 = p.category := eq_of_beq hk
      have hrest_id : rest.map
          (fun kv0 => if kv0.1 == p.category then (kv0.1, kv0.2 ++ [p]) else kv0) = rest := by
        rw [show rest = rest.map id from (List.map_id rest).symm]
        rw [List.map_map]
        apply List.map_congr_left
        intro kv0 hkv0
        show (if kv0.1 == p.category then (kv0.1, kv0.2 ++ [p]) else kv0) = kv0
        rw [if_neg]
        intro hk0
        apply hkey_notin
        rw [hkeq, ← eq_of_beq hk0]
        exact List.mem_map_of_mem Prod.fst hkv0
      rw [List.map_cons, if_pos hk, hrest_id, List.flatMap_cons, List.flatMap_cons]
      calc (kv.2 ++ [p]) ++ rest.flatMap (fun kv => kv.2)
          = kv.2 ++ ([p] ++ rest.flatMap (fun kv => kv.2)) := by
            rw [List.append_assoc]
        _ |>.Perm (kv.2 ++ (rest.flatMap (fun kv => kv.2) ++ [p])) :=
            List.Perm.append_left _ List.perm_append_comm
        _ = (kv.2 ++ rest.flatMap (fun kv => kv.2)) ++ [p] := by
            rw [List.append_assoc]
    · have hk' : (kv.1 == p.category) = false := by
        revert hk
        cases kv.1 == p.category <;> simp
      rw [hk'] at h
      rw [Bool.false_or] at h
      rw [List.map_cons, if_neg hk, List.flatMap_cons, List.flatMap_cons,
        List.append_assoc]
      exact List.Perm.append_left _ (ih hnd' h)

/-- One grouping step preserves key uniqueness, bucket category correctness and
bucket non-emptiness. -/
theorem groupStep_inv (acc : List (String × List Principle)) (p : Principle)
    (hnd : (acc.map Prod.fst).Nodup)
    (hcat : ∀ kv ∈ acc, ∀ q ∈ kv.2, q.category = kv.1)
    (hne : ∀ kv ∈ acc, kv.2 ≠ []) :
    ((groupStep acc p).map Prod.fst).Nodup ∧
      (∀ kv ∈ groupStep acc p, ∀ q ∈ kv.2, q.category = kv.1) ∧
      (∀ kv ∈ groupStep acc p, kv.2 ≠ []) := by
  unfold groupStep
  by_cases h : acc.any (fun kv => kv.1 == p.category) = true
  · rw [if_pos h]
    have hkeys : (Prod.fst ∘ fun kv : String × List Principle =>
        if kv.1 == p.category then (kv.1, kv.2 ++ [p]) else kv) = Prod.fst := by
      funext kv
      show (if kv.1 == p.category then ((kv.1, kv.2 ++ [p]) : String × List Principle)
        else kv).1 = kv.1
      split <;> rfl
    refine ⟨?_, ?_, ?_⟩
    · rw [List.map_map, hkeys]
      exact hnd
    · intro kv hkv q hq
      rw [List.mem_map] at hkv
      obtain ⟨kv0, hkv0, rfl⟩ := hkv
      by_cases hk : (kv0.1 == p.category) = true
      · rw [if_pos hk] at hq ⊢
        rcases List.mem_append.mp hq with hq | hq
        · exact hcat kv0 hkv0 q hq
        · rw [List.mem_singleton.mp hq]
          exact (eq_of_beq hk).symm
      · rw [if_neg hk] at hq ⊢
        exact hcat kv0 hkv0 q hq
    · intro kv hkv
      rw [List.mem_map] at hkv
      obtain ⟨kv0, hkv0, rfl⟩ := hkv
      by_cases hk : (kv0.1 == p.category) = true
      · rw [if_pos hk]
        simp
      · rw [if_neg hk]
        exact hne kv0 hkv0
  · rw [if_neg h]
    have hnotin : p.category ∉ acc.map Prod.fst := by
      intro hmem
      rw [List.mem_map] at hmem
      obtain ⟨kv0, hkv0, hfst⟩ := hmem
      have hfalse : acc.any (fun kv => kv.1 == p.category) = false := by
        cases hh : acc.any (fun kv => kv.1 == p.category) with
        | false => rfl
        | true => exact absurd hh h
      have := List.any_eq_false.mp hfalse kv0 hkv0
      apply this
      rw [hfst]
      exact beq_self_eq_true _
    refine ⟨?_, ?_, ?_⟩
    · rw [List.map_append]
      rw [List.nodup_append]
      refine ⟨hnd, List.nodup_singleton _, ?_⟩
      intro a ha hb
      rw [show (([(p.category, [p])] : List (String × List Principle)).map Prod.fst)
        = [p.category] from rfl] at hb
      rw [List.mem_singleton] at hb
      subst hb
      exact hnotin ha
    · intro kv hkv q hq
      rcases List.mem_append.mp hkv with hkv | hkv
      · exact hcat kv hkv q hq
      · rw [List.mem_singleton.mp hkv] at hq ⊢
        rw [List.mem_singleton.mp hq]
    · intro kv hkv
      rcases List.mem_append.mp hkv with hkv | hkv
      · exact hne kv hkv
      · rw [List.mem_singleton.mp hkv]
        simp

/-- The whole grouping fold: invariants plus the contents permutation. -/
theorem groupFold_inv (ps : List Principle) (acc : List (String × List Principle))
    (hnd : (acc.map Prod.fst).Nodup)
    (hcat : ∀ kv ∈ acc, ∀ q ∈ kv.2, q.category = kv.1)
    (hne : ∀ kv ∈ acc, kv.2 ≠ []) :
    ((ps.foldl groupStep acc).map Prod.fst).Nodup ∧
      (∀ kv ∈ ps.foldl groupStep acc, ∀ q ∈ kv.2, q.category = kv.1) ∧
      (∀ kv ∈ ps.foldl groupStep acc, kv.2 ≠ []) ∧
      ((ps.foldl groupStep acc).flatMap (fun kv => kv.2)).Perm
        (acc.flatMap (fun kv => kv.2) ++ ps) := by
  induction ps generalizing acc with
  | nil => exact ⟨hnd, hcat, hne, by simp⟩
  | cons p rest ih =>
    have hperm1 : ((groupStep acc p).flatMap (fun kv => kv.2)).Perm
        (acc.flatMap (fun kv => kv.2) ++ [p]) := by
      unfold groupStep
      by_cases h : acc.any (fun kv => kv.1 == p.category) = true
      · rw [if_pos h]
        exact update_flatMap_perm acc p hnd h
      · rw [if_neg h]
        rw [List.flatMap_append]
        rfl
    obtain ⟨h1, h2, h3⟩ := groupStep_inv acc p hnd hcat hne
    obtain ⟨g1, g2, g3, g4⟩ := ih (groupStep acc p) h1 h2 h3
    refine ⟨g1, g2, g3, ?_⟩
    show ((rest.foldl groupStep (groupStep acc p)).flatMap (fun kv => kv.2)).Perm
      (acc.flatMap (fun kv => kv.2) ++ (p :: rest))
    calc (rest.foldl groupStep (groupStep acc p)).flatMap (fun kv => kv.2)
        |>.Perm ((groupStep acc p).flatMap (fun kv => kv.2) ++ rest) := g4
      _ |>.Perm ((acc.flatMap (fun kv => kv.2) ++ [p]) ++ rest) := hperm1.append_right rest
      _ = acc.flatMap (fun kv => kv.2) ++ (p :: rest) := by
          rw [List.append_assoc]
          rfl

/-- groupCategories: buckets carry their own category, are nonempty, and flatten
to a permutation of the input. -/
theorem groupCategories_spec (ps : List Principle) :
    (∀ kv ∈ groupCategories ps, ∀ q ∈ kv.2, q.category = kv.1) ∧
      (∀ kv ∈ groupCategories ps, kv.2 ≠ []) ∧
      ((groupCategories ps).flatMap (fun kv => kv.2)).Perm ps := by
  obtain ⟨h1, h2, h3, h4⟩ := groupFold_inv ps [] (by simp) (by simp) (by simp)
  exact ⟨h2, h3, by simpa using h4⟩

/-! C10 infrastructure part 6: the synthesized document splits back into the
generated segments. -/

/-- Splitting the join of several pieces concatenates their splits. -/
theorem splitNl_joinNl_flat (L : List (List Char)) (h : L ≠ []) :
    splitNl (joinNl L) = L.flatMap splitNl := by
  induction L with
  | nil => exact absurd rfl h
  | cons l L' ih =>
    cases L' with
    | nil =>
      show splitNl l = splitNl l ++ []
      rw [List.append_nil]
    | cons l2 L'' =>
      show splitNl (l ++ '\n' :: joinNl (l2 :: L'')) = splitNl l ++ (l2 :: L'').flatMap splitNl
      rw [splitNl_append_newline, ih (by simp)]

/-- Per-record generated lines split into the per-record segment lines. -/
theorem linesP (ps' : List Principle) (h : ∀ p ∈ ps', '\n' ∉ p.title.data) :
    (ps'.flatMap (fun p => ["## " ++ p.title, p.text, ""])).flatMap
        (fun s => splitNl s.data) =
      (ps'.map principleSeg).flatMap segLines := by
  induction ps' with
  | nil => rfl
  | cons p rest ih =>
    have htitle : '\n' ∉ ("## " ++ p.title).data := by
      rw [String.data_append]
      intro hmem
      rcases List.mem_append.mp hmem with hmem | hmem
      · simp [show ("## " : String).data = ['#', '#', ' '] from rfl] at hmem
      · exact h p (by simp) hmem
    show splitNl ("## " ++ p.title).data ++ (splitNl p.text.data ++ (splitNl "".data ++
        ((rest.flatMap fun q => ["## " ++ q.title, q.text, ""]).flatMap
          fun s => splitNl s.data)))
      = segLines (principleSeg p) ++ ((rest.map principleSeg).flatMap segLines)
    rw [splitNl_no_newline _ htitle, ih (fun q hq => h q (by simp [hq]))]
    simp [segLines, principleSeg, List.append_assoc,
      show splitNl ("" : String).data = [[]] from rfl]

/-- Per-category generated lines split into the per-category segment lines. -/
theorem linesC (cats : List (String × List Principle))
    (h : ∀ kv ∈ cats, '\n' ∉ kv.1.data ∧ ∀ p ∈ kv.2, '\n' ∉ p.title.data) :
    (cats.flatMap (fun kv => ["# " ++ kv.1, ""] ++
        kv.2.flatMap (fun p => ["## " ++ p.title, p.text, ""]))).flatMap
        (fun s => splitNl s.data) =
      (cats.flatMap categorySegs).flatMap segLines := by
  induction cats with
  | nil => rfl
  | cons kv rest ih =>
    obtain ⟨hk, hts⟩ := h kv (by simp)
    have hcat : '\n' ∉ ("# " ++ kv.1).data := by
      rw [String.data_append]
      intro hmem
      rcases List.mem_append.mp hmem with hmem | hmem
      · simp [show ("# " : String).data = ['#', ' '] from rfl] at hmem
      · exact hk hmem
    show splitNl ("# " ++ kv.1).data ++ (splitNl "".data ++
        (((kv.2.flatMap fun p => ["## " ++ p.title, p.text, ""]) ++
          rest.flatMap (fun kv => ["# " ++ kv.1, ""] ++
            kv.2.flatMap fun p => ["## " ++ p.title, p.text, ""])).flatMap
          fun s => splitNl s.data))
      = (categorySegs kv ++ rest.flatMap categorySegs).flatMap segLines
    rw [List.flatMap_append _ _ (fun (s : String) => splitNl s.data), linesP kv.2 hts,
      ih (fun kv2 h2 => h kv2 (by simp [h2])), splitNl_no_newline _ hcat,
      List.flatMap_append _ _ segLines]
    simp [categorySegs, segLines, List.append_assoc,
      show splitNl ("" : String).data = [[]] from rfl]

/-- Parsing the joined document visits exactly the generated lines. -/
theorem parse_lines_eq (lines : List String)
    (hnr : ∀ s ∈ lines, '\r' ∉ s.data) (hne : lines ≠ []) :
    splitNl (normalizeNl (joinLinesNl lines).data) =
      lines.flatMap (fun s => splitNl s.data) := by
  have hdata : (joinLinesNl lines).data = joinNl (lines.map String.data) := rfl
  have hmapne : lines.map String.data ≠ [] := by
    intro h0
    apply hne
    cases lines with
    | nil => rfl
    | cons a b => cases h0
  have hnorm : '\r' ∉ joinNl (lines.map String.data) := by
    apply not_mem_joinNl _ (by decide)
    intro l hl
    rw [List.mem_map] at hl
    obtain ⟨s, hs, rfl⟩ := hl
    exact hnr s hs
  rw [hdata, normalizeNl_eq_self _ hnorm, splitNl_joinNl_flat _ hmapne,
    List.flatMap_map]

/-- segItems over all category segments: one item per record in grouped order. -/
theorem segItems_cats (cats : List (String × List Principle)) :
    (∀ kv ∈ cats, kv.1 ≠ "" ∧ ∀ p ∈ kv.2, p.title ≠ "" ∧ pyStrip p.text ≠ "") →
    ∀ cp, segItems cp (cats.flatMap categorySegs) =
      cats.flatMap (fun kv => kv.2.map
        (fun p => ⟨[kv.1, p.title], pyStrip p.text⟩)) := by
  induction cats with
  | nil =>
    intro _ cp
    rfl
  | cons kv rest ih =>
    intro hall cp
    obtain ⟨hk1, hk2⟩ := hall kv (by simp)
    rw [List.flatMap_cons, segItems_append, List.flatMap_cons]
    have h1 : segItems cp (categorySegs kv) =
        kv.2.map (fun p => ⟨[kv.1, p.title], pyStrip p.text⟩) := by
      show bufItem (setPath cp 1 kv.1) (some (setPath cp 1 kv.1)) [[]] ++
        segItems (setPath cp 1 kv.1) (kv.2.map principleSeg) = _
      rw [setPath_one, bufItem_blank, List.nil_append]
      exact segItems_principles kv.1 hk1 kv.2 hk2 [kv.1] (Or.inl rfl)
    rw [h1, ih (fun kv' h' => hall kv' (by simp [h'])) _]

/-- Stripping an already stripped nonempty text keeps it nonempty. -/
theorem pyStrip_idem_ne (s : String) (h : pyStrip s ≠ "") :
    pyStrip (pyStrip s) ≠ "" := by
  intro h2
  apply h
  have h3 : pyStripChars (pyStripChars s.data) = [] := congrArg String.data h2
  have h4 := (pyStripChars_eq_nil_iff _).mp h3
  rw [hasNS_pyStripChars] at h4
  have h5 := (pyStripChars_eq_nil_iff _).mpr h4
  show String.mk (pyStripChars s.data) = ""
  rw [h5]

/-- flatMap congruence over members. -/
theorem flatMap_congr_mem {α β : Type} (l : List α) (f g : α → List β)
    (h : ∀ a ∈ l, f a = g a) : l.flatMap f = l.flatMap g := by
  induction l with
  | nil => rfl
  | cons a rest ih =>
    rw [List.flatMap_cons, List.flatMap_cons, h a (by simp),
      ih (fun b hb => h b (by simp [hb]))]

/-- C10 amended: for a store of records whose category and title equal their own
trimmed forms (nonempty, single-line, carriage-return free) and whose text is
nonempty after trimming, carriage-return free and contains no heading-shaped
line, load_raw_principles returns absent exactly for the empty store, and
parsing the synthesized outline yields exactly one leaf item per record, with
path [category, title] and the trimmed text as body, in grouped category order —
a permutation of the record order. -/
theorem C10_amended_roundtrip (ps : List Principle) (hrec : ∀ p ∈ ps, RecordOk p) :
    (load_raw_principles ps = none ↔ ps = []) ∧
    (∀ md, load_raw_principles ps = some md →
      parse_principles md = (groupCategories ps).flatMap
        (fun kv => kv.2.map (fun p => (⟨[p.category, p.title], pyStrip p.text⟩ : PrincipleItem))) ∧
      (parse_principles md).Perm
        (ps.map (fun p => ⟨[p.category, p.title], pyStrip p.text⟩))) := by
  obtain ⟨hcat, hbne, hperm⟩ := groupCategories_spec ps
  constructor
  · cases hps : ps with
    | nil => simp [load_raw_principles]
    | cons p rest =>
      constructor
      · intro hx
        rw [load_raw_principles, if_neg (by simp)] at hx
        exact Option.noConfusion hx
      · intro hx
        cases hx
  · intro md hmd
    have hpsne : ps ≠ [] := by
      intro h0
      rw [h0] at hmd
      simp [load_raw_principles] at hmd
    have hpse : ¬(ps.isEmpty = true) := by
      intro hh
      exact hpsne (List.isEmpty_iff.mp hh)
    have hmdeq : md = joinLinesNl ((groupCategories ps).flatMap (fun kv =>
        ["# " ++ kv.1, ""] ++
          kv.2.flatMap (fun p => ["## " ++ p.title, p.text, ""]))) := by
      rw [load_raw_principles, if_neg hpse] at hmd
      exact (Option.some.inj hmd).symm
    have hmemps : ∀ kv ∈ groupCategories ps, ∀ q ∈ kv.2, q ∈ ps := fun kv hkv q hq =>
      hperm.mem_iff.mp (List.mem_flatMap.mpr ⟨kv, hkv, hq⟩)
    have hkey : ∀ kv ∈ groupCategories ps, kv.1 ≠ "" ∧ pyStrip kv.1 = kv.1 ∧
        '\n' ∉ kv.1.data ∧ '\r' ∉ kv.1.data := by
      intro kv hkv
      cases hb : kv.2 with
      | nil => exact absurd hb (hbne kv hkv)
      | cons q qrest =>
        have hqmem : q ∈ kv.2 := by
          rw [hb]
          simp
        have hqc := hcat kv hkv q hqmem
        obtain ⟨c1, c2, c3, c4, _⟩ := hrec q (hmemps kv hkv q hqmem)
        rw [← hqc]
        exact ⟨c1, c2, c3, c4⟩
    have hsegok : ∀ s ∈ (groupCategories ps).flatMap categorySegs, SegOk s := by
      intro s hs
      rw [List.mem_flatMap] at hs
      obtain ⟨kv, hkv, hs⟩ := hs
      rw [show categorySegs kv = ⟨("# " ++ kv.1).data, 1, kv.1, [[]]⟩ ::
        kv.2.map principleSeg from rfl] at hs
      rcases List.mem_cons.mp hs with rfl | hs
      · obtain ⟨k1, k2, _, _⟩ := hkey kv hkv
        refine ⟨headingMatch_h1 kv.1 k1 k2, ?_⟩
        intro l hl
        rw [List.mem_singleton.mp hl]
        rfl
      · rw [List.mem_map] at hs
        obtain ⟨p, hp, rfl⟩ := hs
        obtain ⟨_, _, _, _, t1, t2, _, _, _, _, x3⟩ := hrec p (hmemps kv hkv p hp)
        refine ⟨headingMatch_h2 p.title t1 t2, ?_⟩
        intro l hl
        rcases List.mem_append.mp hl with hl | hl
        · exact x3 l hl
        · rw [List.mem_singleton.mp hl]
          rfl
    have hcne : groupCategories ps ≠ [] := by
      intro h0
      apply hpsne
      rw [h0] at hperm
      exact List.perm_nil.mp hperm.symm
    have hlinesne : (groupCategories ps).flatMap (fun kv =>
        ["# " ++ kv.1, ""] ++
          kv.2.flatMap (fun p => ["## " ++ p.title, p.text, ""])) ≠ [] := by
      cases hc : groupCategories ps with
      | nil => exact absurd hc hcne
      | cons kv rest =>
        rw [List.flatMap_cons]
        simp
    have hlinesnr : ∀ s ∈ (groupCategories ps).flatMap (fun kv =>
        ["# " ++ kv.1, ""] ++
          kv.2.flatMap (fun p => ["## " ++ p.title, p.text, ""])),
        '\r' ∉ s.data := by
      intro s hs
      rw [List.mem_flatMap] at hs
      obtain ⟨kv, hkv, hs⟩ := hs
      rcases List.mem_append.mp hs with hs | hs
      · rcases List.mem_cons.mp hs with rfl | hs
        · obtain ⟨_, _, _, k4⟩ := hkey kv hkv
          rw [String.data_append]
          intro hmem
          rcases List.mem_append.mp hmem with hmem | hmem
          · simp [show ("# " : String).data = ['#', ' '] from rfl] at hmem
          · exact k4 hmem
        · rw [List.mem_singleton.mp hs]
          simp [show ("" : String).data = ([] : List Char) from rfl]
      · rw [List.mem_flatMap] at hs
        obtain ⟨p, hp, hs⟩ := hs
        obtain ⟨_, _, _, _, _, _, _, t4, _, x2, _⟩ := hrec p (hmemps kv hkv p hp)
        rcases List.mem_cons.mp hs with rfl | hs
        · rw [String.data_append]
          intro hmem
          rcases List.mem_append.mp hmem with hmem | hmem
          · simp [show ("## " : String).data = ['#', '#', ' '] from rfl] at hmem
          · exact t4 hmem
        · rcases List.mem_cons.mp hs with rfl | hs
          · exact x2
          · rw [List.mem_singleton.mp hs]
            simp [show ("" : String).data = ([] : List Char) from rfl]
    have hclosed : parse_principles md = ((groupCategories ps).flatMap
        (fun kv => kv.2.map (fun p => (⟨[kv.1, p.title], pyStrip p.text⟩ : PrincipleItem)))).filter
        (fun it => !it.path.isEmpty && !(pyStrip it.text == "")) := by
      rw [hmdeq]
      simp only [parse_principles]
      rw [parse_lines_eq _ hlinesnr hlinesne,
        linesC _ (fun kv hkv => ⟨(hkey kv hkv).2.2.1, fun p hp =>
          (hrec p (hmemps kv hkv p hp)).2.2.2.2.2.2.1⟩),
        seg_run _ _ _ _ _ hsegok,
        segItems_cats _ (fun kv hkv => ⟨(hkey kv hkv).1, fun p hp =>
          ⟨(hrec p (hmemps kv hkv p hp)).2.2.2.2.1,
            (hrec p (hmemps kv hkv p hp)).2.2.2.2.2.2.2.2.1⟩⟩) [],
        bufItem_empty]
      rfl
    have hfkeep : ((groupCategories ps).flatMap
        (fun kv => kv.2.map (fun p => (⟨[kv.1, p.title], pyStrip p.text⟩ : PrincipleItem)))).filter
        (fun it => !it.path.isEmpty && !(pyStrip it.text == "")) =
        (groupCategories ps).flatMap
          (fun kv => kv.2.map (fun p => (⟨[kv.1, p.title], pyStrip p.text⟩ : PrincipleItem))) := by
      rw [List.filter_eq_self]
      intro it hit
      rw [List.mem_flatMap] at hit
      obtain ⟨kv, hkv, hit⟩ := hit
      rw [List.mem_map] at hit
      obtain ⟨p, hp, rfl⟩ := hit
      have hx1 := (hrec p (hmemps kv hkv p hp)).2.2.2.2.2.2.2.2.1
      have hne2 := pyStrip_idem_ne _ hx1
      have hb : (pyStrip (pyStrip p.text) == "") = false := by
        cases hh : pyStrip (pyStrip p.text) == ""
        · rfl
        · exact absurd (eq_of_beq hh) hne2
      show (!([kv.1, p.title] : List String).isEmpty &&
        !(pyStrip (pyStrip p.text) == "")) = true
      rw [hb]
      rfl
    have hcrw : (groupCategories ps).flatMap
        (fun kv => kv.2.map (fun p => (⟨[kv.1, p.title], pyStrip p.text⟩ : PrincipleItem))) =
        (groupCategories ps).flatMap
          (fun kv => kv.2.map (fun p => (⟨[p.category, p.title], pyStrip p.text⟩ : PrincipleItem))) := by
      apply flatMap_congr_mem
      intro kv hkv
      apply List.map_congr_left
      intro p hp
      rw [show p.category = kv.1 from hcat kv hkv p hp]
    have hmain : parse_principles md = (groupCategories ps).flatMap
        (fun kv => kv.2.map (fun p => (⟨[p.category, p.title], pyStrip p.text⟩ : PrincipleItem))) := by
      rw [hclosed, hfkeep, hcrw]
    refine ⟨hmain, ?_⟩
    rw [hmain, show (groupCategories ps).flatMap
        (fun kv => kv.2.map (fun p =>
          (⟨[p.category, p.title], pyStrip p.text⟩ : PrincipleItem))) =
      ((groupCategories ps).flatMap (fun kv => kv.2)).map
        (fun p => (⟨[p.category, p.title], pyStrip p.text⟩ : PrincipleItem)) from
      (List.map_flatMap _ _ _).symm]
    exact hperm.map _

/-- C10 counterexample: the record (id 1, category " A", title "T", text "x") has
category, title and text all nonempty after trimming and no heading line in its
text, yet the parsed leaf of the synthesized outline has path ["A", "T"], not
[category, title] = [" A", "T"]: the parser strips the heading titles, so no
item with the raw category in its path exists. -/
theorem C10_counterexample :
    pyStrip " A" ≠ "" ∧ pyStrip "T" ≠ "" ∧ pyStrip "x" ≠ "" ∧
    (splitNl ("x" : String).data).map headingMatch = [none] ∧
    load_raw_principles c10BadStore = some "#  A\n\n## T\nx\n" ∧
    parse_principles "#  A\n\n## T\nx\n" = [⟨["A", "T"], "x"⟩] ∧
    ¬((⟨[" A", "T"], "x"⟩ : PrincipleItem) ∈ parse_principles "#  A\n\n## T\nx\n") := by
  decide

/-- C10 amended, instantiated at a well-formed one-record store. -/
theorem C10_amended_roundtrip_witness :
    (∀ p ∈ c10Store, RecordOk p) ∧
    load_raw_principles c10Store = some c10Md ∧
    (parse_principles c10Md = (groupCategories c10Store).flatMap
      (fun kv => kv.2.map
        (fun p => (⟨[p.category, p.title], pyStrip p.text⟩ : PrincipleItem))) ∧
     (parse_principles c10Md).Perm
       (c10Store.map (fun p => ⟨[p.category, p.title], pyStrip p.text⟩))) :=
  ⟨by decide, by decide,
   (C10_amended_roundtrip c10Store (by decide)).2 c10Md (by decide)⟩
